import Mathlib

/-!
Verification of the `pyfileseq` file-sequence library (`fileseq.py`).

This file gives a shallow embedding of the `FileSequence` class and its
detection algorithm `find_in_list`, and proves the specification claims
about it.  Python strings are modelled as `String` (lists of characters),
Python integers as `Int`/`Nat`, Python `list` mutation as explicit state
passing, and Python exceptions as `Except`-style results.  All loops of the
source are embedded with explicit fuel so that every definition is
executable by the kernel; fuel values are exactly the iteration bounds of
the corresponding Python loops (`xrange` bounds, pool length), and the
fuelled while-loop is proved to never run out of fuel.
-/

/-! ### Decimal strings: `str`, `int` and `str.zfill` -/

/-- Value of a decimal digit character, as Python's `int` computes it. -/
def digVal (c : Char) : Nat := c.toNat - 48

/-- The decimal digit character for `d < 10`. -/
def digChar (d : Nat) : Char := Char.ofNat (48 + d)

/-- Little-endian decimal digit characters of `n`; `fuel` bounds the recursion
and any `fuel ≥ n` computes all digits (empty list for `n = 0`). -/
def digitsRev : Nat → Nat → List Char
  | 0, _ => []
  | fuel + 1, n => if n = 0 then [] else digChar (n % 10) :: digitsRev fuel (n / 10)

/-- Python `str` of a non-negative integer. -/
def pyStrNat (n : Nat) : String := if n = 0 then "0" else ⟨(digitsRev n n).reverse⟩

/-- Python `str` of an integer. -/
def pyStr (n : Int) : String :=
  if n < 0 then "-" ++ pyStrNat (-n).toNat else pyStrNat n.toNat

/-- Python `int` of a string of decimal digits. -/
def strToNat (s : String) : Nat := s.data.foldl (fun a c => 10 * a + digVal c) 0

/-- Python `str.zfill`: left-pad with `'0'` to length `w`, keeping a leading
sign character in front of the inserted zeros. -/
def pyZfill (s : String) (w : Nat) : String :=
  if w ≤ s.length then s
  else
    match s.data with
    | [] => ⟨List.replicate w '0'⟩
    | c :: rest =>
      if c = '+' ∨ c = '-' then ⟨c :: (List.replicate (w - s.length) '0' ++ rest)⟩
      else ⟨List.replicate (w - s.length) '0' ++ (c :: rest)⟩

/-- Python `s.startswith("0")`. -/
def startsWithZero (s : String) : Bool :=
  match s.data with
  | c :: _ => c = '0'
  | [] => false

/-- Python `"".join(l)`. -/
def strJoin (l : List String) : String := l.foldr (fun a b => a ++ b) ""

/-- Python `s * n` (string repetition). -/
def pyRepeat (s : String) (n : Nat) : String := strJoin (List.replicate n s)

/-! ### Lexicographic string order (Python compares strings by code point) -/

/-- Boolean strict lexicographic order on character lists, comparing
characters by code point exactly as Python string comparison does. -/
def listLtB : List Char → List Char → Bool
  | [], [] => false
  | [], _ :: _ => true
  | _ :: _, [] => false
  | a :: as, b :: bs => a.toNat < b.toNat || (a = b && listLtB as bs)

/-- Python `a < b` on strings. -/
def strLtB (a b : String) : Bool := listLtB a.data b.data

/-- Python `a <= b` on strings. -/
def strLeB (a b : String) : Bool := !(strLtB b a)

/-! ### The digit-run tokenizer, `re.split("([0-9]+)", s)`

`re.split` with a capturing group of maximal digit runs returns an
alternating list: literal, digit run, literal, digit run, ..., literal.
Boundary literals may be empty, internal literals are non-empty, digit
runs are non-empty.  `tokAux` computes that decomposition on `List Char`. -/

/-- Alternating literal/digit-run decomposition of a character list,
starting and ending with a (possibly empty) literal. -/
def tokAux : List Char → List (List Char)
  | [] => [[]]
  | c :: cs =>
    if c.isDigit then
      match tokAux cs with
      | [] :: dig :: more => [] :: (c :: dig) :: more
      | rest => [] :: [c] :: rest
    else
      match tokAux cs with
      | lit :: more => (c :: lit) :: more
      | [] => [[c]]

/-- Embedding of `re.split(FileSequence.NUMBER_PATTERN, entry)`. -/
def components (s : String) : List String := (tokAux s.data).map (fun l => ⟨l⟩)

/-- Embedding of Python's `range(n - 2, 0, -2)`: the descending list of
candidate component indices tried by `find_in_list`. -/
def candidateIndices (n : Nat) : List Nat :=
  (List.range ((n - 1) / 2)).map (fun j => n - 2 - 2 * j)

/-! ### The `FileSequence` class -/

/-- The `FileSequence` object state: its five data attributes plus `path`. -/
structure FileSequence where
  path : String
  head : String
  tail : String
  first : Int
  last : Int
  padding : Nat
deriving DecidableEq

/-- Python exception values raised by the class. -/
inductive PyError where
  | indexError : String → PyError
  | typeError : String → PyError
  | keyError : String → PyError
  | valueError : String → PyError
deriving DecidableEq

/-- Embedding of `FileSequence.__init__`: note that the source assigns
`self.path = ""`, ignoring the `path` argument. -/
def FileSequence.init (path head tail : String) (first last : Int) (padding : Nat) :
    FileSequence :=
  { path := "", head := head, tail := tail, first := first, last := last, padding := padding }

/-- Embedding of `FileSequence.__len__`. -/
def FileSequence.lenPy (fs : FileSequence) : Int := (fs.last - fs.first) + 1

/-- Embedding of `FileSequence.filename`: raises `IndexError` (the spec's
OutOfRange) outside `[first, last]`. -/
def FileSequence.filename (fs : FileSequence) (number : Int) : Except PyError String :=
  if fs.first ≤ number ∧ number ≤ fs.last then
    .ok (fs.head ++ pyZfill (pyStr number) fs.padding ++ fs.tail)
  else
    .error (.indexError "number out of sequence range")

/-- Embedding of `FileSequence.__getitem__` on an integer key (the
non-slice branch). -/
def FileSequence.getItemInt (fs : FileSequence) (key : Int) : Except PyError String :=
  if 0 ≤ key then fs.filename (fs.first + key)
  else fs.filename (fs.last - key * -1 + 1)

/-- The list of filenames yielded by `FileSequence.__iter__`: the iterator
yields `self.filename(n)` for `n` in `range(first, last + 1)`, and within
those bounds `filename` returns the concatenation below. -/
def intRange (a b : Int) : List Int :=
  (List.range (b + 1 - a).toNat).map (fun k => a + (Nat.cast k : Int))

/-- All filenames enumerated by iterating a `FileSequence`. -/
def enumNames (fs : FileSequence) : List String :=
  (intRange fs.first fs.last).map (fun n => fs.head ++ pyZfill (pyStr n) fs.padding ++ fs.tail)

/-- Embedding of the `name` property. -/
def FileSequence.nameProp (fs : FileSequence) : String :=
  ⟨(fs.head.data.reverse.dropWhile (fun c => c = '.')).reverse⟩

/-! ### `FileSequence.format` -/

/-- The keyword/value pairs built by `FileSequence.format` (every value
rendered as the string `str.format` substitutes for the plain `{field}`
placeholder). -/
def formatValues (fs : FileSequence) (padchar : String) : List (String × String) :=
  [("head", fs.head),
   ("tail", fs.tail),
   ("first", pyStr fs.first),
   ("last", pyStr fs.last),
   ("length", pyStr fs.lenPy),
   ("padding", pyStr fs.padding),
   ("padchars", if pyRepeat padchar fs.padding = "" then padchar else pyRepeat padchar fs.padding),
   ("range", pyStr fs.first ++ "-" ++ pyStr fs.last),
   ("path", fs.path)]

/-- Keyword lookup in the substitution table. -/
def lookupVal (k : String) : List (String × String) → Option String
  | [] => none
  | (k', v) :: rest => if k = k' then some v else lookupVal k rest

def lbraceChar : Char := Char.ofNat 123

def rbraceChar : Char := Char.ofNat 125

/-- Scanner state of the template substitution engine: outside any
placeholder, just after an opening brace, just after a closing brace, or
inside a field name (accumulated in reverse). -/
inductive TMode where
  | normal : TMode
  | sawOpen : TMode
  | sawClose : TMode
  | inField : List Char → TMode

/-- Template substitution engine of `str.format` restricted to plain
named fields in braces (plus doubled-brace escapes), consuming one
character per step. -/
def rtGo (vs : List (String × String)) : List Char → TMode → Except PyError (List Char)
  | [], .normal => .ok []
  | [], _ => .error (.valueError "Single brace encountered in format string")
  | c :: rest, .normal =>
    if c = lbraceChar then rtGo vs rest .sawOpen
    else if c = rbraceChar then rtGo vs rest .sawClose
    else
      match rtGo vs rest .normal with
      | .ok out => .ok (c :: out)
      | .error e => .error e
  | c :: rest, .sawOpen =>
    if c = lbraceChar then
      match rtGo vs rest .normal with
      | .ok out => .ok (lbraceChar :: out)
      | .error e => .error e
    else if c = rbraceChar then .error (.indexError "tuple index out of range")
    else rtGo vs rest (.inField [c])
  | c :: rest, .sawClose =>
    if c = rbraceChar then
      match rtGo vs rest .normal with
      | .ok out => .ok (rbraceChar :: out)
      | .error e => .error e
    else .error (.valueError "Single brace encountered in format string")
  | c :: rest, .inField acc =>
    if c = rbraceChar then
      match lookupVal ⟨acc.reverse⟩ vs with
      | some v =>
        match rtGo vs rest .normal with
        | .ok out => .ok (v.data ++ out)
        | .error e => .error e
      | none => .error (.keyError ⟨acc.reverse⟩)
    else rtGo vs rest (.inField (c :: acc))

/-- Embedding of `FileSequence.format`. -/
def FileSequence.formatPy (fs : FileSequence) (template : String) (padchar : String) :
    Except PyError String :=
  match rtGo (formatValues fs padchar) template.data .normal with
  | .ok out => .ok ⟨out⟩
  | .error e => .error e

/-! ### The detector, `FileSequence.find_in_list`

The Python method mutates a single list `entries` (sort, `pop(0)`,
`remove`) while building `sequences` and `other_files`.  The embedding
passes that list state explicitly.  `scanUpF` embeds the first
`adjacent_files` loop (fuel is `len(entries)` at generator start, exactly
the `xrange` bound of the source), `scanDownF` the `reverse=True` loop
(fuel `v - 1`, the length of `xrange(v - 1, 0, -1)`). -/

/-- Forward neighbour scan: repeatedly look up `f n`, remove it on a hit
and continue with `n + 1`; return the final pool together with the last
number that was found (`n - 1` on an immediate miss). -/
def scanUpF (f : Int → String) : Nat → List String → Int → List String × Int
  | 0, pool, n => (pool, n - 1)
  | fuel + 1, pool, n =>
    if f n ∈ pool then scanUpF f fuel (pool.erase (f n)) (n + 1) else (pool, n - 1)

/-- Backward neighbour scan: from `n` downward while `1 ≤ n`, removing
hits; returns the final pool and the smallest number found (`n + 1` on an
immediate miss). -/
def scanDownF (f : Int → String) : Nat → List String → Int → List String × Int
  | 0, pool, n => (pool, n + 1)
  | fuel + 1, pool, n =>
    if 1 ≤ n then
      if f n ∈ pool then scanDownF f fuel (pool.erase (f n)) (n - 1) else (pool, n + 1)
    else (pool, n + 1)

/-- The candidate filename built by `adjacent_files`: the components of the
popped entry with component `i` replaced by `str(n).zfill(padding)`. -/
def render (comps : List String) (i : Nat) (padding : Nat) (n : Int) : String :=
  strJoin (comps.set i (pyZfill (pyStr n) padding))

/-- One iteration of the `for i in range(len(components) - 2, 0, -2)` body:
try component `i` as the counter; returns the sequence found (if any) and
the resulting entry pool. -/
def tryCandidate (comps : List String) (i : Nat) (pool : List String) :
    Option FileSequence × List String :=
  let tok := comps.getD i ""
  let v : Int := (strToNat tok : Nat)
  let padding := if startsWithZero tok then tok.length else 0
  let up := scanUpF (render comps i padding) pool.length pool (v + 1)
  let down := scanDownF (render comps i padding) (v - 1).toNat up.1 (v - 1)
  if down.2 ≠ up.2 then
    (some { path := "", head := strJoin (comps.take i), tail := strJoin (comps.drop (i + 1)),
            first := down.2, last := up.2, padding := padding }, down.1)
  else
    (none, down.1)

/-- The candidate loop over the numeric components, rightmost first,
stopping at the first success. -/
def tryCandidates (comps : List String) : List Nat → List String → Option FileSequence × List String
  | [], pool => (none, pool)
  | i :: is, pool =>
    match tryCandidate comps i pool with
    | (some s, pool') => (some s, pool')
    | (none, pool') => tryCandidates comps is pool'

/-- The `while entries:` loop of `find_in_list`.  State: remaining pool,
accumulated `sequences` and `other_files`.  Returns additionally the final
pool (the state of the caller's mutated list when the call returns); `none`
only on fuel exhaustion, which `find_in_list_terminates` rules out. -/
def detectLoopF : Nat → List String → List FileSequence → List String →
    Option (List FileSequence × List String × List String)
  | _, [], seqs, others => some (seqs, others, [])
  | 0, _ :: _, _, _ => none
  | fuel + 1, e :: rest, seqs, others =>
    let comps := components e
    match tryCandidates comps (candidateIndices comps.length) rest with
    | (some s, pool') => detectLoopF fuel pool' (seqs ++ [s]) others
    | (none, pool') => detectLoopF fuel pool' seqs (others ++ [e])

/-- Python `entries.sort()`: ascending lexicographic sort. -/
def sortEntries (l : List String) : List String :=
  List.insertionSort (fun a b => strLeB a b = true) l

/-- Embedding of `FileSequence.find_in_list`, including the final state of
the caller's (mutated) argument list as third component. -/
def find_in_listFull (entries : List String) :
    List FileSequence × List String × List String :=
  (detectLoopF (sortEntries entries).length (sortEntries entries) [] []).getD ([], [], [])

/-- The `(sequences, other_files)` value returned by `find_in_list`. -/
def find_in_list (entries : List String) : List FileSequence × List String :=
  ((find_in_listFull entries).1, (find_in_listFull entries).2.1)

/-- The contents of the caller's list after `find_in_list` returns (the
source sorts and pops the caller's list in place). -/
def entriesAfterFind (entries : List String) : List String :=
  (find_in_listFull entries).2.2

example : find_in_list ["0998", "0999", "1000"] =
    ([{ path := "", head := "", tail := "", first := 998, last := 1000, padding := 4 }], []) := by
  decide

example : find_in_list ["frame5.png"] = ([], ["frame5.png"]) := by decide

example : find_in_list ["a.0001.ext", "a.0003.ext", "a.0002.ext"] =
    ([{ path := "", head := "a.", tail := ".ext", first := 1, last := 3, padding := 4 }], []) := by
  decide

/-! ### Character lemmas -/

theorem char_toNat_inj {a b : Char} (h : a.toNat = b.toNat) : a = b :=
  Char.ext (UInt32.ext h)

theorem isDigit_iff {c : Char} : c.isDigit = true ↔ 48 ≤ c.toNat ∧ c.toNat ≤ 57 := by
  simp only [Char.isDigit, decide_eq_true_eq, Bool.and_eq_true]
  exact Iff.rfl

theorem digChar_toNat {d : Nat} (h : d < 10) : (digChar d).toNat = 48 + d := by
  have hv : (48 + d).isValidChar := by
    left
    omega
  simp only [digChar, Char.ofNat, hv, dite_true]
  rfl

theorem digChar_isDigit {d : Nat} (h : d < 10) : (digChar d).isDigit = true := by
  rw [isDigit_iff, digChar_toNat h]
  omega

theorem digVal_digChar {d : Nat} (h : d < 10) : digVal (digChar d) = d := by
  rw [digVal, digChar_toNat h]
  omega

theorem digVal_lt_ten {c : Char} (h : c.isDigit = true) : digVal c < 10 := by
  rw [isDigit_iff] at h
  rw [digVal]
  omega

theorem digChar_digVal {c : Char} (h : c.isDigit = true) : digChar (digVal c) = c := by
  have hb := isDigit_iff.mp h
  apply char_toNat_inj
  rw [digChar_toNat (digVal_lt_ten h), digVal]
  omega

theorem zeroChar_toNat : ('0').toNat = 48 := by decide

theorem digChar_ne_zeroChar {d : Nat} (hd : d < 10) (h : d ≠ 0) : digChar d ≠ '0' := by
  intro he
  have h1 := digChar_toNat hd
  rw [he, zeroChar_toNat] at h1
  omega

theorem digit_ne_sign {c : Char} (h : c.isDigit = true) : ¬(c = '+' ∨ c = '-') := by
  rw [isDigit_iff] at h
  rintro (rfl | rfl)
  · exact absurd h (by decide)
  · exact absurd h (by decide)

theorem zeroChar_isDigit : ('0').isDigit = true := by decide

theorem digVal_zeroChar : digVal '0' = 0 := by decide

theorem isDigit_toNat_ne {c c' : Char} (h : c.isDigit = true) (h' : c'.isDigit = false) :
    c ≠ c' := by
  intro he
  rw [he, h'] at h
  exact Bool.false_ne_true h

/-! ### The decimal printer `pyStrNat` -/

theorem digitsRev_eq {fuel n : Nat} (h : n ≤ fuel) :
    digitsRev fuel n = (Nat.digits 10 n).map digChar := by
  induction fuel generalizing n with
  | zero =>
    have hn : n = 0 := Nat.le_zero.mp h
    subst hn
    simp [digitsRev]
  | succ fuel ih =>
    by_cases hn : n = 0
    · subst hn
      simp [digitsRev]
    · rw [digitsRev, if_neg hn, Nat.digits_def' (by omega : (1:Nat) < 10) (Nat.pos_of_ne_zero hn)]
      rw [List.map_cons]
      congr 1
      exact ih (by omega : n / 10 ≤ fuel)

theorem pyStrNat_data {n : Nat} (h : n ≠ 0) :
    (pyStrNat n).data = ((Nat.digits 10 n).map digChar).reverse := by
  rw [pyStrNat, if_neg h, digitsRev_eq (Nat.le_refl n)]

theorem pyStrNat_zero : pyStrNat 0 = "0" := rfl

theorem pyStrNat_all_digits {n : Nat} : ∀ c ∈ (pyStrNat n).data, c.isDigit = true := by
  intro c hc
  by_cases h : n = 0
  · subst h
    simp only [pyStrNat_zero] at hc
    have : c = '0' := by simpa using hc
    rw [this]
    exact zeroChar_isDigit
  · rw [pyStrNat_data h, List.mem_reverse, List.mem_map] at hc
    obtain ⟨d, hd, rfl⟩ := hc
    exact digChar_isDigit (Nat.digits_lt_base (by omega) hd)

theorem pyStrNat_length_pos {n : Nat} : 0 < (pyStrNat n).length := by
  by_cases h : n = 0
  · subst h
    decide
  · have : (pyStrNat n).data ≠ [] := by
      rw [pyStrNat_data h]
      simp [Nat.digits_ne_nil_iff_ne_zero.mpr h]
    rw [String.length]
    exact List.length_pos.mpr this

theorem pyStrNat_head_ne_zero {n : Nat} (h : n ≠ 0) :
    ∀ c, (pyStrNat n).data.head? = some c → c ≠ '0' := by
  intro c hc
  rw [pyStrNat_data h, List.head?_reverse, List.getLast?_map] at hc
  have hne : Nat.digits 10 n ≠ [] := Nat.digits_ne_nil_iff_ne_zero.mpr h
  rw [List.getLast?_eq_getLast _ hne] at hc
  have hd := Nat.getLast_digit_ne_zero 10 h
  have hlt : (Nat.digits 10 n).getLast hne < 10 :=
    Nat.digits_lt_base (by omega) (List.getLast_mem hne)
  have hce : digChar ((Nat.digits 10 n).getLast hne) = c := by
    simpa using hc
  rw [← hce]
  exact digChar_ne_zeroChar hlt hd

/-! ### The decimal parser -/

/-- `parseL` is `strToNat` on raw character lists. -/
def parseL (cs : List Char) : Nat := cs.foldl (fun a c => 10 * a + digVal c) 0

theorem strToNat_eq_parseL {s : String} : strToNat s = parseL s.data := rfl

theorem parseL_from {a : Nat} {cs : List Char} :
    cs.foldl (fun x c => 10 * x + digVal c) a = a * 10 ^ cs.length + parseL cs := by
  induction cs generalizing a with
  | nil => simp [parseL]
  | cons c cs ih =>
    rw [List.foldl_cons, ih]
    conv_rhs => rw [parseL, List.foldl_cons]
    rw [show (List.foldl (fun x c => 10 * x + digVal c) (10 * 0 + digVal c) cs) =
          (10 * 0 + digVal c) * 10 ^ cs.length + parseL cs from ih]
    ring_nf
    simp [List.length_cons, pow_succ]
    ring

theorem parseL_snoc {cs : List Char} {c : Char} :
    parseL (cs ++ [c]) = 10 * parseL cs + digVal c := by
  rw [parseL, List.foldl_append]
  rw [show List.foldl (fun a c => 10 * a + digVal c) 0 cs = parseL cs from rfl]
  simp

theorem parseL_revMap {L : List Nat} (h : ∀ d ∈ L, d < 10) :
    parseL ((L.map digChar).reverse) = Nat.ofDigits 10 L := by
  induction L with
  | nil => simp [parseL, Nat.ofDigits]
  | cons d L ih =>
    rw [List.map_cons, List.reverse_cons, parseL_snoc, Nat.ofDigits_cons]
    rw [ih (fun x hx => h x (List.mem_cons_of_mem d hx))]
    rw [digVal_digChar (h d (List.mem_cons_self d L))]
    ring

theorem parseL_pyStrNat {n : Nat} : parseL (pyStrNat n).data = n := by
  by_cases h : n = 0
  · subst h
    decide
  · rw [pyStrNat_data h,
      parseL_revMap (fun d hd => Nat.digits_lt_base (by omega) hd),
      Nat.ofDigits_digits]

theorem parseL_cons_zero {cs : List Char} : parseL ('0' :: cs) = parseL cs := by
  rw [parseL, parseL, List.foldl_cons]
  norm_num [digVal_zeroChar]

theorem parseL_replicate_zero {k : Nat} {cs : List Char} :
    parseL (List.replicate k '0' ++ cs) = parseL cs := by
  induction k with
  | zero => simp
  | succ k ih =>
    rw [List.replicate_succ, List.cons_append, parseL_cons_zero]
    exact ih

theorem parseL_lt {cs : List Char} (h : ∀ c ∈ cs, c.isDigit = true) :
    parseL cs < 10 ^ cs.length := by
  induction cs using List.reverseRecOn with
  | nil => simp [parseL]
  | append_singleton cs c ih =>
    rw [parseL_snoc]
    have h1 : parseL cs < 10 ^ cs.length := ih (fun x hx => h x (by simp [hx]))
    have h2 : digVal c < 10 := digVal_lt_ten (h c (by simp))
    rw [List.length_append, List.length_singleton, pow_succ]
    omega

/-! ### `pyZfill` on unsigned strings -/

theorem pyZfill_data {s : String} (h : ∀ c, s.data.head? = some c → ¬(c = '+' ∨ c = '-')) :
    ∀ w, (pyZfill s w).data = List.replicate (w - s.length) '0' ++ s.data := by
  intro w
  rw [pyZfill]
  by_cases hw : w ≤ s.length
  · rw [if_pos hw]
    have : w - s.length = 0 := by omega
    rw [this]
    simp
  · rw [if_neg hw]
    split
    · rename_i hs
      have hlen : s.length = 0 := by
        rw [String.length, hs]
        rfl
      rw [hs, hlen]
      simp
    · rename_i c rest hs
      rw [if_neg (h c (by rw [hs]; rfl)), hs]

theorem pyZfill_length {s : String} (h : ∀ c, s.data.head? = some c → ¬(c = '+' ∨ c = '-'))
    {w : Nat} : (pyZfill s w).length = max w s.length := by
  have hd := pyZfill_data h w
  rw [String.length, hd, List.length_append, List.length_replicate]
  rw [String.length]
  omega

theorem pyZfill_zero {s : String} : pyZfill s 0 = s := by
  rw [pyZfill, if_pos (Nat.zero_le _)]

/-! ### Round trips between printing, parsing and padding -/

theorem map_digChar_digVal {l : List Char} (h : ∀ c ∈ l, c.isDigit = true) :
    l.map (fun c => digChar (digVal c)) = l := by
  induction l with
  | nil => rfl
  | cons c l ih =>
    rw [List.map_cons, digChar_digVal (h c (List.mem_cons_self _ _)),
      ih (fun x hx => h x (List.mem_cons_of_mem _ hx))]

theorem digVal_ne_zero {c : Char} (hcd : c.isDigit = true) (hc0 : c ≠ '0') : digVal c ≠ 0 := by
  intro hv
  apply hc0
  have hb := isDigit_iff.mp hcd
  apply char_toNat_inj
  rw [zeroChar_toNat]
  rw [digVal] at hv
  omega

theorem printer_inverts_parseL {cs : List Char} (hne : cs ≠ [])
    (hd : ∀ c ∈ cs, c.isDigit = true) (h0 : ∀ c, cs.head? = some c → c ≠ '0') :
    (pyStrNat (parseL cs)).data = cs := by
  have hrecover : (((cs.map digVal).reverse).map digChar).reverse = cs := by
    rw [List.map_reverse, List.reverse_reverse, List.map_map]
    exact map_digChar_digVal hd
  have hbound : ∀ d ∈ (cs.map digVal).reverse, d < 10 := by
    intro d hdm
    rw [List.mem_reverse, List.mem_map] at hdm
    obtain ⟨c, hc, rfl⟩ := hdm
    exact digVal_lt_ten (hd c hc)
  have hLne : (cs.map digVal).reverse ≠ [] := by simpa using hne
  have hlast : ∀ hh : (cs.map digVal).reverse ≠ [], ((cs.map digVal).reverse).getLast hh ≠ 0 := by
    intro hh
    obtain ⟨c, cs', hcons⟩ := List.exists_cons_of_ne_nil hne
    have hc0 : c ≠ '0' := h0 c (by rw [hcons]; rfl)
    have hcd : c.isDigit = true := hd c (by rw [hcons]; exact List.mem_cons_self _ _)
    have hgl : ((cs.map digVal).reverse).getLast? = some (digVal c) := by
      rw [List.getLast?_reverse, hcons, List.map_cons]
      rfl
    rw [List.getLast?_eq_getLast _ hh] at hgl
    have := Option.some_injective _ hgl
    rw [this]
    exact digVal_ne_zero hcd hc0
  have hparse : parseL cs = Nat.ofDigits 10 ((cs.map digVal).reverse) := by
    conv_lhs => rw [← hrecover]
    exact parseL_revMap hbound
  have hdig : Nat.digits 10 (Nat.ofDigits 10 ((cs.map digVal).reverse)) =
      (cs.map digVal).reverse :=
    Nat.digits_ofDigits 10 (by omega) _ hbound hlast
  have hne0 : parseL cs ≠ 0 := by
    intro hz
    rw [hparse] at hz
    have h1 : Nat.digits 10 (Nat.ofDigits 10 ((cs.map digVal).reverse)) = [] := by
      rw [hz]
      exact Nat.digits_zero 10
    rw [hdig] at h1
    exact hLne h1
  rw [pyStrNat_data hne0, hparse, hdig, hrecover]

theorem zfill_printer_inverts_parseL {cs : List Char} (hne : cs ≠ [])
    (hd : ∀ c ∈ cs, c.isDigit = true) :
    (pyZfill (pyStrNat (parseL cs)) cs.length).data = cs := by
  induction cs with
  | nil => exact absurd rfl hne
  | cons c cs' ih =>
    have hzfd : ∀ (m : Nat) (w : Nat), (pyZfill (pyStrNat m) w).data =
        List.replicate (w - (pyStrNat m).length) '0' ++ (pyStrNat m).data := by
      intro m w
      apply pyZfill_data
      intro x hx
      apply digit_ne_sign
      apply pyStrNat_all_digits
      exact List.mem_of_mem_head? hx
    by_cases hc : c = '0'
    · subst hc
      match hcs : cs' with
      | [] => decide
      | c₂ :: cs₂ =>
        have hne' : c₂ :: cs₂ ≠ [] := List.cons_ne_nil _ _
        have hd' : ∀ x ∈ c₂ :: cs₂, x.isDigit = true := by
          intro x hx
          exact hd x (List.mem_cons_of_mem _ hx)
        have ihh := ih hne' hd'
        have hparse : parseL ('0' :: c₂ :: cs₂) = parseL (c₂ :: cs₂) := parseL_cons_zero
        rw [hparse]
        set m := parseL (c₂ :: cs₂) with hm
        have hlen_le : (pyStrNat m).length ≤ (c₂ :: cs₂).length := by
          have := congrArg List.length ihh
          rw [hzfd] at this
          rw [List.length_append, List.length_replicate] at this
          have hsl : (pyStrNat m).data.length = (pyStrNat m).length := rfl
          omega
        rw [hzfd] at ihh ⊢
        rw [List.length_cons]
        have hsucc : (c₂ :: cs₂).length + 1 - (pyStrNat m).length =
            ((c₂ :: cs₂).length - (pyStrNat m).length) + 1 := by omega
        rw [hsucc, List.replicate_succ, List.cons_append, ihh]
    · have hstep : (pyStrNat (parseL (c :: cs'))).data = c :: cs' := by
        apply printer_inverts_parseL (List.cons_ne_nil _ _) hd
        intro x hx
        have hxc : c = x := by
          simpa using hx
        rw [← hxc]
        exact hc
      rw [hzfd]
      have hlen : (pyStrNat (parseL (c :: cs'))).length = (c :: cs').length := by
        rw [String.length, hstep]
      rw [hlen, Nat.sub_self, List.replicate_zero, List.nil_append, hstep]

theorem parseL_zfill_pyStrNat {n p : Nat} :
    parseL (pyZfill (pyStrNat n) p).data = n := by
  have hzfd : (pyZfill (pyStrNat n) p).data =
      List.replicate (p - (pyStrNat n).length) '0' ++ (pyStrNat n).data := by
    apply pyZfill_data
    intro x hx
    exact digit_ne_sign (pyStrNat_all_digits x (List.mem_of_mem_head? hx))
  rw [hzfd, parseL_replicate_zero, parseL_pyStrNat]

theorem pyStrNat_len_mono {a b : Nat} (h : a ≤ b) :
    (pyStrNat a).length ≤ (pyStrNat b).length := by
  by_cases ha : a = 0
  · subst ha
    calc ("0" : String).length = 1 := rfl
    _ ≤ (pyStrNat b).length := pyStrNat_length_pos
  · have hb : b ≠ 0 := by omega
    rw [String.length, String.length, pyStrNat_data ha, pyStrNat_data hb]
    simp only [List.length_reverse, List.length_map]
    exact Nat.le_digits_len_le 10 a b h

/-! ### Tokenizer invariants

`AltParts p` captures the shape of the decomposition produced by
`re.split("([0-9]+)", s)`: alternating literal / digit-run components,
starting and ending with a literal, where digit runs are non-empty and
all-digit, literals are digit-free, and every literal other than the two
boundary ones is non-empty. -/

def joinParts (ps : List (List Char)) : List Char := ps.foldr (fun a b => a ++ b) []

def AltParts : List (List Char) → Prop
  | [] => False
  | [lit] => ∀ c ∈ lit, c.isDigit = false
  | lit :: dig :: rest =>
    (∀ c ∈ lit, c.isDigit = false) ∧ dig ≠ [] ∧ (∀ c ∈ dig, c.isDigit = true) ∧
    (1 < rest.length → rest.headD [] ≠ []) ∧ AltParts rest

theorem joinParts_nil : joinParts [] = [] := rfl

theorem joinParts_cons {x : List Char} {ps : List (List Char)} :
    joinParts (x :: ps) = x ++ joinParts ps := rfl

theorem joinParts_append {ps qs : List (List Char)} :
    joinParts (ps ++ qs) = joinParts ps ++ joinParts qs := by
  induction ps with
  | nil => rfl
  | cons x ps ih => rw [List.cons_append, joinParts_cons, joinParts_cons, ih, List.append_assoc]

theorem tokAux_ne_nil : ∀ cs : List Char, tokAux cs ≠ [] := by
  intro cs
  match cs with
  | [] => simp [tokAux]
  | c :: cs' =>
    rw [tokAux]
    by_cases hc : c.isDigit <;> simp only [hc, if_true, if_false, Bool.false_eq_true]
    · match tokAux cs' with
      | [] :: dig :: more => simp
      | [] => simp
      | [[]] => simp
      | (x :: l) :: more => simp
    · match htk : tokAux cs' with
      | lit :: more => simp
      | [] => exact absurd htk (tokAux_ne_nil cs')

theorem tokAux_join : ∀ cs : List Char, joinParts (tokAux cs) = cs := by
  intro cs
  match cs with
  | [] => rfl
  | c :: cs' =>
    have ih := tokAux_join cs'
    rw [tokAux]
    by_cases hc : c.isDigit <;> simp only [hc, if_true, if_false, Bool.false_eq_true]
    · match htk : tokAux cs' with
      | [] :: dig :: more =>
        rw [htk] at ih
        simp only [joinParts_cons, joinParts_nil, List.nil_append, List.cons_append,
          List.append_assoc] at ih ⊢
        rw [ih]
      | [] => exact absurd htk (tokAux_ne_nil cs')
      | [[]] =>
        rw [htk] at ih
        simp only [joinParts_cons, joinParts_nil, List.nil_append, List.append_nil,
          List.singleton_append] at ih ⊢
        rw [ih]
      | (x :: l) :: more =>
        rw [htk] at ih
        simp only [joinParts_cons, joinParts_nil, List.nil_append, List.cons_append,
          List.singleton_append, List.append_assoc] at ih ⊢
        rw [ih]
    · match htk : tokAux cs' with
      | lit :: more =>
        rw [htk] at ih
        simp only [joinParts_cons, List.cons_append] at ih ⊢
        rw [ih]
      | [] => exact absurd htk (tokAux_ne_nil cs')

theorem tokAux_valid : ∀ cs : List Char, AltParts (tokAux cs) := by
  intro cs
  match cs with
  | [] =>
    rw [tokAux]
    intro c hc
    exact absurd hc (List.not_mem_nil c)
  | c :: cs' =>
    have ih := tokAux_valid cs'
    rw [tokAux]
    by_cases hc : c.isDigit <;> simp only [hc, if_true, if_false, Bool.false_eq_true]
    · match htk : tokAux cs' with
      | [] :: dig :: more =>
        rw [htk] at ih
        obtain ⟨h1, h2, h3, h4, h5⟩ := ih
        refine ⟨h1, List.cons_ne_nil _ _, ?_, h4, h5⟩
        intro x hx
        rcases List.mem_cons.mp hx with rfl | hx'
        · exact hc
        · exact h3 x hx'
      | [] => exact absurd htk (tokAux_ne_nil cs')
      | [[]] =>
        rw [htk] at ih
        exact ⟨fun x hx => absurd hx (List.not_mem_nil x), List.cons_ne_nil _ _,
          fun x hx => by rw [List.mem_singleton.mp hx]; exact hc, by simp, ih⟩
      | (x :: l) :: more =>
        rw [htk] at ih
        refine ⟨fun y hy => absurd hy (List.not_mem_nil y), List.cons_ne_nil _ _,
          fun y hy => by rw [List.mem_singleton.mp hy]; exact hc, ?_, ih⟩
        intro _
        simp
    · match htk : tokAux cs' with
      | [lit] =>
        rw [htk] at ih
        intro y hy
        rcases List.mem_cons.mp hy with rfl | hy'
        · simpa using hc
        · exact ih y hy'
      | lit :: dig :: more =>
        rw [htk] at ih
        obtain ⟨h1, h2, h3, h4, h5⟩ := ih
        refine ⟨?_, h2, h3, h4, h5⟩
        intro y hy
        rcases List.mem_cons.mp hy with rfl | hy'
        · simpa using hc
        · exact h1 y hy'
      | [] => exact absurd htk (tokAux_ne_nil cs')

theorem altParts_length_odd : ∀ p, AltParts p → p.length % 2 = 1
  | [], h => h.elim
  | [_], _ => rfl
  | _ :: _ :: rest, h => by
    have ih := altParts_length_odd rest h.2.2.2.2
    simp only [List.length_cons]
    omega

theorem altParts_odd_tok : ∀ p, AltParts p → ∀ i, i % 2 = 1 → i < p.length →
    p.getD i [] ≠ [] ∧ ∀ c ∈ p.getD i [], c.isDigit = true
  | [], h, _, _, _ => h.elim
  | [_], _, i, hodd, hlt => by
    simp only [List.length_singleton] at hlt
    omega
  | _ :: _ :: rest, h, i, hodd, hlt => by
    match i with
    | 0 => omega
    | 1 => exact ⟨h.2.1, h.2.2.1⟩
    | (k + 2) =>
      have hk : k % 2 = 1 := by omega
      have hklt : k < rest.length := by
        simp only [List.length_cons] at hlt
        omega
      simpa using altParts_odd_tok rest h.2.2.2.2 k hk hklt

theorem altParts_even_tok : ∀ p, AltParts p → ∀ i, i % 2 = 0 →
    ∀ c ∈ p.getD i [], c.isDigit = false
  | [], h, _, _ => h.elim
  | [lit], hv, i, heven => by
    match i with
    | 0 => exact hv
    | (k + 1) =>
      intro c hc
      simp only [List.getD_cons_succ, List.getD] at hc
      simp at hc
  | lit :: dig :: rest, h, i, heven => by
    match i with
    | 0 => exact h.1
    | 1 => omega
    | (k + 2) =>
      have hk : k % 2 = 0 := by omega
      simpa using altParts_even_tok rest h.2.2.2.2 k hk

theorem altParts_internal_ne_nil : ∀ p, AltParts p → ∀ i, i % 2 = 0 → 0 < i →
    i + 1 < p.length → p.getD i [] ≠ []
  | [], h, _, _, _, _ => h.elim
  | [_], _, i, _, hpos, hlt => by
    simp only [List.length_singleton] at hlt
    omega
  | _ :: _ :: rest, h, i, heven, hpos, hlt => by
    match i with
    | 0 => omega
    | 1 => omega
    | (k + 2) =>
      simp only [List.length_cons] at hlt
      match k, heven with
      | 0, _ =>
        have hh := h.2.2.2.1 (by omega)
        have hrw : rest.headD [] = rest.getD 0 [] := by
          cases rest <;> rfl
        rw [hrw] at hh
        simpa using hh
      | (m + 2), heven =>
        have := altParts_internal_ne_nil rest h.2.2.2.2 (m + 2) (by omega) (by omega)
          (by omega)
        simpa using this

theorem string_mk_nil_eq_empty : (⟨[]⟩ : String) = "" := rfl

theorem components_map_data {s : String} :
    (components s).map String.data = tokAux s.data := by
  rw [components, List.map_map]
  have hid : (String.data ∘ fun l => (⟨l⟩ : String)) = id := by
    funext l
    rfl
  rw [hid, List.map_id]

theorem components_length {s : String} : (components s).length = (tokAux s.data).length := by
  rw [components, List.length_map]

theorem components_getD {s : String} {i : Nat} :
    ((components s).getD i "").data = (tokAux s.data).getD i [] := by
  have h := List.getD_map (tokAux s.data) [] (n := i) (fun l => (⟨l⟩ : String))
  rw [components]
  rw [show (⟨[]⟩ : String) = "" from rfl] at h
  rw [h]

theorem strJoin_data {l : List String} : (strJoin l).data = joinParts (l.map String.data) := by
  induction l with
  | nil => rfl
  | cons s l ih =>
    rw [strJoin] at ih ⊢
    simp only [List.foldr_cons, List.map_cons, joinParts_cons]
    rw [String.data_append, ih]

theorem joinParts_set {p : List (List Char)} {i : Nat} {x : List Char} (h : i < p.length) :
    joinParts (p.set i x) = joinParts (p.take i) ++ x ++ joinParts (p.drop (i + 1)) := by
  rw [List.set_eq_take_append_cons_drop, if_pos h, joinParts_append, joinParts_cons]
  rw [List.append_assoc]

theorem joinParts_split {p : List (List Char)} {i : Nat} (h : i < p.length) :
    joinParts p = joinParts (p.take i) ++ p.getD i [] ++ joinParts (p.drop (i + 1)) := by
  conv_lhs => rw [← List.take_append_drop i p]
  rw [joinParts_append, ← List.getElem_cons_drop p i h, joinParts_cons,
    List.getD_eq_getElem p [] h, List.append_assoc]

/-! ### `intRange` lemmas -/

theorem mem_intRange {a b j : Int} : j ∈ intRange a b ↔ a ≤ j ∧ j ≤ b := by
  rw [intRange]
  simp only [List.mem_map, List.mem_range]
  constructor
  · rintro ⟨k, hk, rfl⟩
    omega
  · intro h
    refine ⟨(j - a).toNat, by omega, by omega⟩

theorem intRange_empty {a b : Int} (h : b < a) : intRange a b = [] := by
  rw [intRange]
  have : (b + 1 - a).toNat = 0 := by omega
  rw [this]
  rfl

theorem intRange_length {a b : Int} : (intRange a b).length = (b + 1 - a).toNat := by
  rw [intRange, List.length_map, List.length_range]

theorem intRange_concat {a m b : Int} (h1 : a ≤ m) (h2 : m ≤ b + 1) :
    intRange a b = intRange a (m - 1) ++ intRange m b := by
  rw [intRange, intRange, intRange]
  have hsum : (b + 1 - a).toNat = (m - 1 + 1 - a).toNat + (b + 1 - m).toNat := by omega
  rw [hsum, List.range_add, List.map_append]
  congr 1
  rw [List.map_map]
  apply List.map_congr_left
  intro k hk
  simp only [Function.comp_apply]
  omega

theorem intRange_single {a : Int} : intRange a a = [a] := by
  rw [intRange]
  have h1 : (a + 1 - a).toNat = 1 := by omega
  rw [h1]
  simp [List.range_succ]

theorem intRange_cons {a b : Int} (h : a ≤ b) : intRange a b = a :: intRange (a + 1) b := by
  have hc : intRange a b = intRange a (a + 1 - 1) ++ intRange (a + 1) b :=
    intRange_concat (by omega) (by omega)
  have he : a + 1 - 1 = a := by omega
  rw [he] at hc
  rw [hc, intRange_single]
  rfl

theorem intRange_split {a m b : Int} (h1 : a ≤ m) (h2 : m ≤ b) :
    intRange a b = intRange a (m - 1) ++ m :: intRange (m + 1) b := by
  rw [intRange_concat h1 (by omega : m ≤ b + 1), intRange_cons h2]

/-! ### Scan lemmas: what the `adjacent_files` loops consume -/

theorem scanUpF_spec {f : Int → String} :
    ∀ (fuel : Nat) (pool : List String) (n : Int) {pool' : List String} {m : Int},
    scanUpF f fuel pool n = (pool', m) →
    pool.Perm ((intRange n m).map f ++ pool') ∧ n - 1 ≤ m ∧ pool'.Sublist pool := by
  intro fuel
  induction fuel with
  | zero =>
    intro pool n pool' m h
    rw [scanUpF] at h
    have hp : pool' = pool := (congrArg Prod.fst h).symm
    have hm := (congrArg Prod.snd h).symm
    subst hp hm
    refine ⟨?_, by omega, List.Sublist.refl _⟩
    rw [intRange_empty (by omega), List.map_nil, List.nil_append]
  | succ fuel ih =>
    intro pool n pool' m h
    rw [scanUpF] at h
    by_cases hmem : f n ∈ pool
    · rw [if_pos hmem] at h
      obtain ⟨hperm, hle, hsub⟩ := ih (pool.erase (f n)) (n + 1) h
      refine ⟨?_, by omega, hsub.trans (List.erase_sublist _ _)⟩
      have h1 : pool.Perm (f n :: pool.erase (f n)) := List.perm_cons_erase hmem
      have h2 : (f n :: pool.erase (f n)).Perm
          (f n :: ((intRange (n + 1) m).map f ++ pool')) := hperm.cons _
      have h3 : intRange n m = n :: intRange (n + 1) m := intRange_cons (by omega)
      rw [h3, List.map_cons, List.cons_append]
      exact h1.trans h2
    · rw [if_neg hmem] at h
      have hp : pool' = pool := (congrArg Prod.fst h).symm
      have hm := (congrArg Prod.snd h).symm
      subst hp hm
      refine ⟨?_, by omega, List.Sublist.refl _⟩
      rw [intRange_empty (by omega), List.map_nil, List.nil_append]

theorem scanUpF_stay {f : Int → String} :
    ∀ (fuel : Nat) (pool : List String) (n : Int) {pool' : List String},
    scanUpF f fuel pool n = (pool', n - 1) → pool' = pool := by
  intro fuel pool n pool' h
  match fuel with
  | 0 =>
    rw [scanUpF] at h
    exact (congrArg Prod.fst h).symm
  | fuel + 1 =>
    rw [scanUpF] at h
    by_cases hmem : f n ∈ pool
    · rw [if_pos hmem] at h
      have := (scanUpF_spec fuel (pool.erase (f n)) (n + 1) h).2.1
      omega
    · rw [if_neg hmem] at h
      exact (congrArg Prod.fst h).symm

theorem scanDownF_spec {f : Int → String} :
    ∀ (fuel : Nat) (pool : List String) (n : Int) {pool' : List String} {m : Int},
    scanDownF f fuel pool n = (pool', m) →
    pool.Perm ((intRange m n).map f ++ pool') ∧ m ≤ n + 1 ∧ pool'.Sublist pool := by
  intro fuel
  induction fuel with
  | zero =>
    intro pool n pool' m h
    rw [scanDownF] at h
    have hp : pool' = pool := (congrArg Prod.fst h).symm
    have hm := (congrArg Prod.snd h).symm
    subst hp hm
    refine ⟨?_, by omega, List.Sublist.refl _⟩
    rw [intRange_empty (by omega), List.map_nil, List.nil_append]
  | succ fuel ih =>
    intro pool n pool' m h
    rw [scanDownF] at h
    by_cases hn : 1 ≤ n
    · rw [if_pos hn] at h
      by_cases hmem : f n ∈ pool
      · rw [if_pos hmem] at h
        obtain ⟨hperm, hle, hsub⟩ := ih (pool.erase (f n)) (n - 1) h
        refine ⟨?_, by omega, hsub.trans (List.erase_sublist _ _)⟩
        have h1 : pool.Perm (f n :: pool.erase (f n)) := List.perm_cons_erase hmem
        have h2 : (f n :: pool.erase (f n)).Perm
            (f n :: ((intRange m (n - 1)).map f ++ pool')) := hperm.cons _
        have h3 : intRange m n = intRange m (n - 1) ++ [n] := by
          have := intRange_concat (a := m) (m := n) (b := n) (by omega) (by omega)
          rw [this, intRange_single]
        rw [h3, List.map_append, List.map_singleton, List.append_assoc,
          List.singleton_append]
        exact (h1.trans h2).trans (List.perm_middle).symm
      · rw [if_neg hmem] at h
        have hp : pool' = pool := (congrArg Prod.fst h).symm
        have hm := (congrArg Prod.snd h).symm
        subst hp hm
        refine ⟨?_, by omega, List.Sublist.refl _⟩
        rw [intRange_empty (by omega), List.map_nil, List.nil_append]
    · rw [if_neg hn] at h
      have hp : pool' = pool := (congrArg Prod.fst h).symm
      have hm := (congrArg Prod.snd h).symm
      subst hp hm
      refine ⟨?_, by omega, List.Sublist.refl _⟩
      rw [intRange_empty (by omega), List.map_nil, List.nil_append]

theorem scanDownF_stay {f : Int → String} :
    ∀ (fuel : Nat) (pool : List String) (n : Int) {pool' : List String},
    scanDownF f fuel pool n = (pool', n + 1) → pool' = pool := by
  intro fuel pool n pool' h
  match fuel with
  | 0 =>
    rw [scanDownF] at h
    exact (congrArg Prod.fst h).symm
  | fuel + 1 =>
    rw [scanDownF] at h
    by_cases hn : 1 ≤ n
    · rw [if_pos hn] at h
      by_cases hmem : f n ∈ pool
      · rw [if_pos hmem] at h
        have := (scanDownF_spec fuel (pool.erase (f n)) (n - 1) h).2.1
        omega
      · rw [if_neg hmem] at h
        exact (congrArg Prod.fst h).symm
    · rw [if_neg hn] at h
      exact (congrArg Prod.fst h).symm

theorem scanDownF_pos {f : Int → String} :
    ∀ (fuel : Nat) (pool : List String) (n : Int) {pool' : List String} {m : Int},
    0 ≤ n → n.toNat ≤ fuel → scanDownF f fuel pool n = (pool', m) → 1 ≤ m := by
  intro fuel
  induction fuel with
  | zero =>
    intro pool n pool' m hn hfuel h
    rw [scanDownF] at h
    have hm := congrArg Prod.snd h
    simp only at hm
    omega
  | succ fuel ih =>
    intro pool n pool' m hn hfuel h
    rw [scanDownF] at h
    by_cases h1 : 1 ≤ n
    · rw [if_pos h1] at h
      by_cases hmem : f n ∈ pool
      · rw [if_pos hmem] at h
        exact ih (pool.erase (f n)) (n - 1) (by omega) (by omega) h
      · rw [if_neg hmem] at h
        have hm := congrArg Prod.snd h
        simp only at hm
        omega
    · rw [if_neg h1] at h
      have hm := congrArg Prod.snd h
      simp only at hm
      omega

theorem scanDownF_nonneg {f : Int → String} :
    ∀ (fuel : Nat) (pool : List String) (n : Int) {pool' : List String} {m : Int},
    -1 ≤ n → scanDownF f fuel pool n = (pool', m) → 0 ≤ m := by
  intro fuel
  induction fuel with
  | zero =>
    intro pool n pool' m hn h
    rw [scanDownF] at h
    have hm := congrArg Prod.snd h
    simp only at hm
    omega
  | succ fuel ih =>
    intro pool n pool' m hn h
    rw [scanDownF] at h
    by_cases h1 : 1 ≤ n
    · rw [if_pos h1] at h
      by_cases hmem : f n ∈ pool
      · rw [if_pos hmem] at h
        exact ih (pool.erase (f n)) (n - 1) (by omega) h
      · rw [if_neg hmem] at h
        have hm := congrArg Prod.snd h
        simp only at hm
        omega
    · rw [if_neg h1] at h
      have hm := congrArg Prod.snd h
      simp only at hm
      omega

/-! ### Candidate indices and token facts -/

theorem candidateIndices_mem {n i : Nat} (hodd : n % 2 = 1) :
    i ∈ candidateIndices n ↔ i % 2 = 1 ∧ 1 ≤ i ∧ i + 2 ≤ n := by
  rw [candidateIndices]
  simp only [List.mem_map, List.mem_range]
  constructor
  · rintro ⟨j, hj, rfl⟩
    omega
  · intro h
    exact ⟨(n - 2 - i) / 2, by omega, by omega⟩

theorem pyStr_natCast {n : Nat} : pyStr (Nat.cast n) = pyStrNat n := by
  rw [pyStr, if_neg (by omega), Int.toNat_natCast]

/-- The entry-component token at an odd index: non-empty, all digits. -/
theorem components_token_digits {s : String} {i : Nat} (hodd : i % 2 = 1)
    (hlt : i < (components s).length) :
    ((components s).getD i "").data ≠ [] ∧
      ∀ c ∈ ((components s).getD i "").data, c.isDigit = true := by
  rw [components_getD]
  rw [components_length] at hlt
  exact altParts_odd_tok (tokAux s.data) (tokAux_valid s.data) i hodd hlt

/-- Rendering the token's own value with its derived padding reproduces the
token exactly. -/
theorem token_roundtrip {tok : String} (hne : tok.data ≠ [])
    (hd : ∀ c ∈ tok.data, c.isDigit = true) :
    pyZfill (pyStr (Nat.cast (strToNat tok)))
      (if startsWithZero tok = true then tok.length else 0) = tok := by
  rw [pyStr_natCast, strToNat_eq_parseL]
  by_cases hz : startsWithZero tok = true
  · rw [if_pos hz]
    apply String.ext
    have : tok.length = tok.data.length := rfl
    rw [this]
    exact zfill_printer_inverts_parseL hne hd
  · rw [if_neg hz, pyZfill_zero]
    apply String.ext
    apply printer_inverts_parseL hne hd
    intro c hc
    intro hc0
    apply hz
    rw [startsWithZero]
    obtain ⟨c', rest, hcons⟩ := List.exists_cons_of_ne_nil hne
    rw [hcons]
    have : c' = c := by
      rw [hcons] at hc
      simpa using hc
    simp [this, hc0]

/-- `render` splits the components around index `i`. -/
theorem render_eq {comps : List String} {i : Nat} (hlt : i < comps.length)
    {p : Nat} {n : Int} :
    render comps i p n =
      strJoin (comps.take i) ++ pyZfill (pyStr n) p ++ strJoin (comps.drop (i + 1)) := by
  apply String.ext
  rw [render, strJoin_data, List.map_set]
  rw [joinParts_set (by rw [List.length_map]; exact hlt)]
  rw [String.data_append, String.data_append, strJoin_data, strJoin_data,
    List.map_take, List.map_drop]

/-- The popped entry itself equals the rendering of its own counter value. -/
theorem entry_eq_render {e : String} {i : Nat} (hodd : i % 2 = 1)
    (hlt : i < (components e).length) :
    e = render (components e) i
      (if startsWithZero ((components e).getD i "") = true
        then ((components e).getD i "").length else 0)
      (Nat.cast (strToNat ((components e).getD i ""))) := by
  obtain ⟨hne, hd⟩ := components_token_digits hodd hlt
  rw [render_eq hlt, token_roundtrip hne hd]
  apply String.ext
  rw [String.data_append, String.data_append, strJoin_data, strJoin_data,
    List.map_take, List.map_drop, components_map_data]
  have hsplit := joinParts_split (p := tokAux e.data) (i := i)
    (by rw [← components_length]; exact hlt)
  rw [components_getD, ← hsplit]
  exact (tokAux_join e.data).symm

/-! ### Shape facts about the head and tail built by the detector -/

theorem drop_eq_getD_cons {α : Type} [Inhabited α] {l : List α} {j : Nat} (h : j < l.length)
    {d : α} : l.drop j = l.getD j d :: l.drop (j + 1) := by
  rw [← List.getElem_cons_drop l j h, List.getD_eq_getElem l d h]

theorem take_eq_append_getD {α : Type} {l : List α} {j : Nat} (h : j < l.length) {d : α} :
    l.take (j + 1) = l.take j ++ [l.getD j d] := by
  rw [List.take_succ, List.getD_eq_getElem l d h]
  congr 1
  rw [List.getElem?_eq_getElem h]
  rfl

theorem headShape {e : String} {i : Nat} (hodd : i % 2 = 1) (hlt : i < (components e).length) :
    ∀ c, (strJoin ((components e).take i)).data.getLast? = some c → c.isDigit = false := by
  intro c hc
  rw [strJoin_data, List.map_take, components_map_data] at hc
  rw [components_length] at hlt
  have hval := tokAux_valid e.data
  by_cases hi1 : i = 1
  · subst hi1
    have hne : tokAux e.data ≠ [] := tokAux_ne_nil e.data
    obtain ⟨p0, rest, hcons⟩ := List.exists_cons_of_ne_nil hne
    rw [hcons] at hc
    have htake : (p0 :: rest).take 1 = [p0] := rfl
    rw [htake] at hc
    have hjoin : joinParts [p0] = p0 ++ [] := rfl
    rw [hjoin, List.append_nil] at hc
    have hc' : c ∈ p0 := List.mem_of_mem_getLast? hc
    have h0 := altParts_even_tok (tokAux e.data) hval 0 rfl
    rw [hcons, List.getD_cons_zero] at h0
    exact h0 c hc'
  · have hi3 : 3 ≤ i := by omega
    have hstep : (tokAux e.data).take i =
        (tokAux e.data).take (i - 1) ++ [(tokAux e.data).getD (i - 1) []] := by
      have h2 := take_eq_append_getD (l := tokAux e.data) (j := i - 1)
        (by omega) (d := [])
      have h3 : i - 1 + 1 = i := by omega
      rw [h3] at h2
      exact h2
    rw [hstep, joinParts_append] at hc
    have hB_ne : (tokAux e.data).getD (i - 1) [] ≠ [] := by
      apply altParts_internal_ne_nil (tokAux e.data) hval (i - 1) (by omega) (by omega)
      omega
    have hjB : joinParts [(tokAux e.data).getD (i - 1) []] = (tokAux e.data).getD (i - 1) [] := by
      simp [joinParts_cons, joinParts_nil]
    rw [hjB, List.getLast?_append] at hc
    have hlast_ne : ((tokAux e.data).getD (i - 1) []).getLast? ≠ none := by
      intro hn
      rw [List.getLast?_eq_getLast _ hB_ne] at hn
      exact Option.some_ne_none _ hn
    have hor : ((tokAux e.data).getD (i - 1) []).getLast? = some c := by
      cases hgl : ((tokAux e.data).getD (i - 1) []).getLast? with
      | none => exact absurd hgl hlast_ne
      | some c' =>
        rw [hgl] at hc
        simp only [Option.or_some] at hc
        rw [← hc]
    have hcmem : c ∈ (tokAux e.data).getD (i - 1) [] := List.mem_of_mem_getLast? hor
    exact altParts_even_tok (tokAux e.data) hval (i - 1) (by omega) c hcmem

theorem tailShape {e : String} {i : Nat} (hodd : i % 2 = 1)
    (hlt : i + 2 ≤ (components e).length) :
    ∀ c, (strJoin ((components e).drop (i + 1))).data.head? = some c → c.isDigit = false := by
  intro c hc
  rw [strJoin_data, List.map_drop, components_map_data] at hc
  rw [components_length] at hlt
  have hval := tokAux_valid e.data
  have hdrop : (tokAux e.data).drop (i + 1) =
      (tokAux e.data).getD (i + 1) [] :: (tokAux e.data).drop (i + 2) :=
    drop_eq_getD_cons (by omega)
  rw [hdrop, joinParts_cons, List.head?_append] at hc
  by_cases hP : (tokAux e.data).getD (i + 1) [] = []
  · by_cases hend : i + 2 = (tokAux e.data).length
    · have hdrop2 : (tokAux e.data).drop (i + 2) = [] := by
        apply List.drop_eq_nil_of_le
        omega
      rw [hP, hdrop2] at hc
      simp [joinParts_nil] at hc
    · exfalso
      apply altParts_internal_ne_nil (tokAux e.data) hval (i + 1) (by omega) (by omega)
        (by omega)
      exact hP
  · have hsome : ((tokAux e.data).getD (i + 1) []).head? = some c := by
      cases hh : ((tokAux e.data).getD (i + 1) []).head? with
      | none =>
        exfalso
        apply hP
        cases hgd : (tokAux e.data).getD (i + 1) [] with
        | nil => rfl
        | cons a l =>
          rw [hgd] at hh
          simp at hh
      | some c' =>
        rw [hh] at hc
        have hc2 : some c' = some c := hc
        rw [← Option.some_injective _ hc2]
    have hcmem : c ∈ (tokAux e.data).getD (i + 1) [] := List.mem_of_mem_head? hsome
    exact altParts_even_tok (tokAux e.data) hval (i + 1) (by omega) c hcmem

/-! ### Padding facts about detected sequences -/

theorem pyStr_nonneg {n : Int} (h : 0 ≤ n) : pyStr n = pyStrNat n.toNat := by
  rw [pyStr, if_neg (by omega)]

theorem pyZfill_pyStrNat_data {m w : Nat} : (pyZfill (pyStrNat m) w).data =
    List.replicate (w - (pyStrNat m).length) '0' ++ (pyStrNat m).data := by
  apply pyZfill_data
  intro x hx
  exact digit_ne_sign (pyStrNat_all_digits x (List.mem_of_mem_head? hx))

theorem pyZfill_pyStrNat_length {m w : Nat} :
    (pyZfill (pyStrNat m) w).length = max w (pyStrNat m).length := by
  apply pyZfill_length
  intro x hx
  exact digit_ne_sign (pyStrNat_all_digits x (List.mem_of_mem_head? hx))

theorem startsWithZero_of_data {s : String} {rest : List Char} (h : s.data = '0' :: rest) :
    startsWithZero s = true := by
  rw [startsWithZero, h]
  simp

theorem startsWithZero_data {s : String} (h : startsWithZero s = true) :
    ∃ rest, s.data = '0' :: rest := by
  rw [startsWithZero] at h
  match hs : s.data with
  | [] => rw [hs] at h; simp at h
  | c :: rest =>
    rw [hs] at h
    simp only [decide_eq_true_eq] at h
    exact ⟨rest, by rw [h]⟩

theorem head_ne_zero_of_no_leading_zero {s : String} (h : startsWithZero s = false) :
    ∀ c, s.data.head? = some c → c ≠ '0' := by
  intro c hc
  rw [startsWithZero] at h
  match hs : s.data with
  | [] => rw [hs] at hc; simp at hc
  | c' :: rest =>
    rw [hs] at h hc
    simp only [List.head?_cons, Option.some_inj] at hc
    simp only [decide_eq_false_iff_not] at h
    rw [← hc]
    exact h

/-- `pyStrNat` of the value of an all-digit string is no longer than that
string. -/
theorem pyStrNat_parse_len_le {cs : List Char} (hne : cs ≠ [])
    (hd : ∀ c ∈ cs, c.isDigit = true) : (pyStrNat (parseL cs)).length ≤ cs.length := by
  have h := congrArg List.length (zfill_printer_inverts_parseL hne hd)
  rw [pyZfill_pyStrNat_data, List.length_append, List.length_replicate] at h
  have hdl : (pyStrNat (parseL cs)).data.length = (pyStrNat (parseL cs)).length := rfl
  omega

theorem unpadded_token_pos {tok : String} (hne : tok.data ≠ [])
    (hd : ∀ c ∈ tok.data, c.isDigit = true) (hz : startsWithZero tok = false) :
    1 ≤ strToNat tok := by
  by_contra hcon
  have h0 : strToNat tok = 0 := by omega
  have hip := printer_inverts_parseL hne hd (head_ne_zero_of_no_leading_zero hz)
  rw [strToNat_eq_parseL] at h0
  rw [h0] at hip
  have : tok.data = ['0'] := by
    rw [← hip]
    rfl
  have := startsWithZero_of_data this
  rw [hz] at this
  exact Bool.false_ne_true this

theorem padded_first_facts {tok : String} (hne : tok.data ≠ [])
    (hd : ∀ c ∈ tok.data, c.isDigit = true) (hz : startsWithZero tok = true)
    {first : Int} (h0 : 0 ≤ first) (hle : first ≤ Nat.cast (strToNat tok)) :
    startsWithZero (pyZfill (pyStr first) tok.length) = true ∧
      (pyZfill (pyStr first) tok.length).length = tok.length := by
  have hlen_tok : tok.length = tok.data.length := rfl
  have hvle : (pyStrNat (strToNat tok)).length ≤ tok.length := by
    rw [hlen_tok, strToNat_eq_parseL]
    exact pyStrNat_parse_len_le hne hd
  have hfn : first.toNat ≤ strToNat tok := by omega
  have hflen : (pyStrNat first.toNat).length ≤ (pyStrNat (strToNat tok)).length :=
    pyStrNat_len_mono hfn
  rw [pyStr_nonneg h0]
  constructor
  · by_cases hv0 : strToNat tok = 0
    · have hf0 : first = 0 := by omega
      rw [hf0]
      have hd0 : (pyZfill (pyStrNat (0 : Int).toNat) tok.length).data =
          List.replicate (tok.length - (pyStrNat (0 : Int).toNat).length) '0'
            ++ (pyStrNat (0 : Int).toNat).data := pyZfill_pyStrNat_data
      have hzz : (pyStrNat (0 : Int).toNat).data = ['0'] := rfl
      rw [hzz] at hd0
      match hsub : tok.length - (pyStrNat (0 : Int).toNat).length with
      | 0 =>
        rw [hsub] at hd0
        exact startsWithZero_of_data (by rw [hd0]; rfl)
      | k + 1 =>
        rw [hsub, List.replicate_succ] at hd0
        exact startsWithZero_of_data (by rw [hd0]; rfl)
    · have hv1 : 1 ≤ strToNat tok := by omega
      obtain ⟨rest, hrest⟩ := startsWithZero_data hz
      have hrest_ne : rest ≠ [] := by
        intro hrnil
        rw [hrnil] at hrest
        have : strToNat tok = 0 := by
          rw [strToNat_eq_parseL, hrest]
          rfl
        omega
      have hparse_eq : parseL tok.data = parseL rest := by
        rw [hrest]
        exact parseL_cons_zero
      have hvlt : (pyStrNat (strToNat tok)).length < tok.length := by
        have h1 : (pyStrNat (parseL rest)).length ≤ rest.length :=
          pyStrNat_parse_len_le hrest_ne (by
            intro c hc
            apply hd
            rw [hrest]
            exact List.mem_cons_of_mem _ hc)
        have h2 : tok.data.length = rest.length + 1 := by
          rw [hrest]
          rfl
        rw [strToNat_eq_parseL, hparse_eq]
        omega
      have hflt : (pyStrNat first.toNat).length < tok.length := by omega
      have hdata : (pyZfill (pyStrNat first.toNat) tok.length).data =
          List.replicate (tok.length - (pyStrNat first.toNat).length) '0'
            ++ (pyStrNat first.toNat).data := pyZfill_pyStrNat_data
      match hsub : tok.length - (pyStrNat first.toNat).length with
      | 0 => omega
      | k + 1 =>
        rw [hsub, List.replicate_succ] at hdata
        exact startsWithZero_of_data (by rw [hdata]; rfl)
  · rw [pyZfill_pyStrNat_length]
    omega

/-! ### What one candidate attempt does -/

/-- Invariant satisfied by every sequence the detector constructs. -/
def ProducedGood (S : FileSequence) : Prop :=
  S.path = "" ∧ 0 ≤ S.first ∧ S.first < S.last ∧
  (S.padding = 0 → 1 ≤ S.first) ∧
  (S.padding ≠ 0 →
    startsWithZero (pyZfill (pyStr S.first) S.padding) = true ∧
    (pyZfill (pyStr S.first) S.padding).length = S.padding) ∧
  (∀ c, S.head.data.getLast? = some c → c.isDigit = false) ∧
  (∀ c, S.tail.data.head? = some c → c.isDigit = false)

theorem tryCandidate_sublist {comps : List String} {i : Nat} {pool pool' : List String}
    {r : Option FileSequence} (h : tryCandidate comps i pool = (r, pool')) :
    pool'.Sublist pool := by
  rw [tryCandidate] at h
  rcases hu : scanUpF (render comps i (if startsWithZero (comps.getD i "") = true
      then (comps.getD i "").length else 0)) pool.length pool
      (Nat.cast (strToNat (comps.getD i "")) + 1) with ⟨pool1, lastv⟩
  rw [hu] at h
  rcases hdn : scanDownF (render comps i (if startsWithZero (comps.getD i "") = true
      then (comps.getD i "").length else 0)) ((Nat.cast (strToNat (comps.getD i "")) : Int) - 1).toNat
      pool1 ((Nat.cast (strToNat (comps.getD i "")) : Int) - 1) with ⟨pool2, firstv⟩
  rw [hdn] at h
  have hsub1 : pool1.Sublist pool := (scanUpF_spec _ _ _ hu).2.2
  have hsub2 : pool2.Sublist pool1 := (scanDownF_spec _ _ _ hdn).2.2
  have hpool' : pool' = pool2 := by
    by_cases hc : firstv ≠ lastv
    · rw [if_pos hc] at h
      exact (congrArg Prod.snd h).symm
    · rw [if_neg hc] at h
      exact (congrArg Prod.snd h).symm
  rw [hpool']
  exact hsub2.trans hsub1

theorem tryCandidate_none {comps : List String} {i : Nat} {pool pool' : List String}
    (h : tryCandidate comps i pool = (none, pool')) : pool' = pool := by
  rw [tryCandidate] at h
  rcases hu : scanUpF (render comps i (if startsWithZero (comps.getD i "") = true
      then (comps.getD i "").length else 0)) pool.length pool
      (Nat.cast (strToNat (comps.getD i "")) + 1) with ⟨pool1, lastv⟩
  rw [hu] at h
  rcases hdn : scanDownF (render comps i (if startsWithZero (comps.getD i "") = true
      then (comps.getD i "").length else 0)) ((Nat.cast (strToNat (comps.getD i "")) : Int) - 1).toNat
      pool1 ((Nat.cast (strToNat (comps.getD i "")) : Int) - 1) with ⟨pool2, firstv⟩
  rw [hdn] at h
  by_cases hc : firstv ≠ lastv
  · rw [if_pos hc] at h
    have := congrArg Prod.fst h
    simp at this
  · rw [if_neg hc] at h
    have hpool' : pool' = pool2 := (congrArg Prod.snd h).symm
    push_neg at hc
    have hlast_ge : Nat.cast (strToNat (comps.getD i "")) + 1 - 1 ≤ lastv :=
      (scanUpF_spec _ _ _ hu).2.1
    have hfirst_le : firstv ≤ Nat.cast (strToNat (comps.getD i "")) - 1 + 1 :=
      (scanDownF_spec _ _ _ hdn).2.1
    have hlv : lastv = Nat.cast (strToNat (comps.getD i "")) := by omega
    have hfv : firstv = Nat.cast (strToNat (comps.getD i "")) := by omega
    have hpool1 : pool1 = pool := by
      apply scanUpF_stay _ _ _
      rw [hu]
      congr 1
      omega
    have hpool2 : pool2 = pool1 := by
      apply scanDownF_stay _ _ _
      rw [hdn]
      congr 1
      omega
    rw [hpool', hpool2, hpool1]

theorem tryCandidate_some {e : String} {i : Nat} {pool pool' : List String} {S : FileSequence}
    (hodd : i % 2 = 1) (hlen : i + 2 ≤ (components e).length)
    (h : tryCandidate (components e) i pool = (some S, pool')) :
    (e :: pool).Perm (enumNames S ++ pool') ∧ pool'.Sublist pool ∧ ProducedGood S := by
  obtain ⟨htokne, htokd⟩ := components_token_digits (s := e) hodd (by omega)
  rw [tryCandidate] at h
  rcases hu : scanUpF (render (components e) i
      (if startsWithZero ((components e).getD i "") = true
        then ((components e).getD i "").length else 0)) pool.length pool
      (Nat.cast (strToNat ((components e).getD i "")) + 1) with ⟨pool1, lastv⟩
  rw [hu] at h
  rcases hdn : scanDownF (render (components e) i
      (if startsWithZero ((components e).getD i "") = true
        then ((components e).getD i "").length else 0))
      ((Nat.cast (strToNat ((components e).getD i "")) : Int) - 1).toNat
      pool1 ((Nat.cast (strToNat ((components e).getD i "")) : Int) - 1) with ⟨pool2, firstv⟩
  rw [hdn] at h
  by_cases hcnd : firstv ≠ lastv
  case neg =>
    rw [if_neg hcnd] at h
    have := congrArg Prod.fst h
    simp at this
  rw [if_pos hcnd] at h
  have hS : S =
      { path := "", head := strJoin ((components e).take i),
        tail := strJoin ((components e).drop (i + 1)), first := firstv, last := lastv,
        padding := if startsWithZero ((components e).getD i "") = true
          then ((components e).getD i "").length else 0 } := by
    have h1 := congrArg Prod.fst h
    simp only [Option.some_inj] at h1
    exact h1.symm
  have hpool' : pool' = pool2 := (congrArg Prod.snd h).symm
  obtain ⟨hperm_up, hlast_ge, hsub1⟩ := scanUpF_spec _ _ _ hu
  obtain ⟨hperm_dn, hfirst_le, hsub2⟩ := scanDownF_spec _ _ _ hdn
  have hv_le_last : (Nat.cast (strToNat ((components e).getD i "")) : Int) ≤ lastv := by omega
  have hfirst_le_v : firstv ≤ (Nat.cast (strToNat ((components e).getD i "")) : Int) := by
    omega
  have hfirst_nonneg : 0 ≤ firstv := scanDownF_nonneg _ _ _ (by omega) hdn
  have hfl : firstv < lastv := by omega
  have hentry := entry_eq_render (e := e) (i := i) hodd (by omega)
  have henum : enumNames S = (intRange firstv lastv).map
      (render (components e) i (if startsWithZero ((components e).getD i "") = true
        then ((components e).getD i "").length else 0)) := by
    rw [hS, enumNames]
    apply List.map_congr_left
    intro n _
    exact (render_eq (by omega)).symm
  refine ⟨?_, ?_, ?_⟩
  · rw [hpool', henum]
    have hsplit := intRange_split (a := firstv)
      (m := (Nat.cast (strToNat ((components e).getD i "")) : Int)) (b := lastv)
      hfirst_le_v hv_le_last
    rw [hsplit, List.map_append, List.map_cons, ← hentry]
    have hstep1 : (e :: pool).Perm (e :: ((intRange
        ((Nat.cast (strToNat ((components e).getD i "")) : Int) + 1) lastv).map
          (render (components e) i (if startsWithZero ((components e).getD i "") = true
            then ((components e).getD i "").length else 0)) ++ pool1)) := hperm_up.cons e
    have hstep2 := hstep1.trans ((hperm_dn.append_left _).cons e)
    apply hstep2.trans
    have hcomm : ((intRange ((Nat.cast (strToNat ((components e).getD i "")) : Int) + 1)
          lastv).map (render (components e) i
            (if startsWithZero ((components e).getD i "") = true
              then ((components e).getD i "").length else 0)) ++
        ((intRange firstv ((Nat.cast (strToNat ((components e).getD i "")) : Int) - 1)).map
          (render (components e) i (if startsWithZero ((components e).getD i "") = true
            then ((components e).getD i "").length else 0)) ++ pool2)).Perm
        (((intRange firstv ((Nat.cast (strToNat ((components e).getD i "")) : Int) - 1)).map
          (render (components e) i (if startsWithZero ((components e).getD i "") = true
            then ((components e).getD i "").length else 0)) ++
          (intRange ((Nat.cast (strToNat ((components e).getD i "")) : Int) + 1) lastv).map
            (render (components e) i (if startsWithZero ((components e).getD i "") = true
              then ((components e).getD i "").length else 0))) ++ pool2) := by
      rw [← List.append_assoc]
      exact (List.perm_append_comm).append_right pool2
    apply (hcomm.cons e).trans
    exact ((List.perm_middle).append_right pool2).symm
  · rw [hpool']
    exact hsub2.trans hsub1
  · rw [hS, ProducedGood]
    refine ⟨rfl, hfirst_nonneg, hfl, ?_, ?_, ?_, ?_⟩
    · intro hp0
      simp only at hp0
      by_cases hz : startsWithZero ((components e).getD i "") = true
      · rw [if_pos hz] at hp0
        exfalso
        apply htokne
        have hll : ((components e).getD i "").length = ((components e).getD i "").data.length :=
          rfl
        rw [hll] at hp0
        exact List.length_eq_zero.mp hp0
      · have hv1 : 1 ≤ strToNat ((components e).getD i "") :=
          unpadded_token_pos htokne htokd (by
            revert hz
            cases startsWithZero ((components e).getD i "") <;> simp)
        apply scanDownF_pos _ _ _ (by omega) (le_refl _) hdn
    · intro hpne
      simp only at hpne ⊢
      by_cases hz : startsWithZero ((components e).getD i "") = true
      · rw [if_pos hz] at hpne ⊢
        exact padded_first_facts htokne htokd hz hfirst_nonneg hfirst_le_v
      · rw [if_neg hz] at hpne
        exact absurd rfl hpne
    · simp only
      exact headShape hodd (by omega)
    · simp only
      exact tailShape hodd hlen

theorem tryCandidates_sublist {comps : List String} :
    ∀ (idxs : List Nat) (pool : List String) {r : Option FileSequence} {pool' : List String},
    tryCandidates comps idxs pool = (r, pool') → pool'.Sublist pool := by
  intro idxs
  induction idxs with
  | nil =>
    intro pool r pool' h
    rw [tryCandidates] at h
    have := (congrArg Prod.snd h).symm
    simp only at this
    rw [this]
  | cons i is ih =>
    intro pool r pool' h
    rw [tryCandidates] at h
    rcases hc : tryCandidate comps i pool with ⟨ro, poolc⟩
    rw [hc] at h
    match ro, h with
    | some s, h =>
      have h2 := (congrArg Prod.snd h).symm
      simp only at h2
      rw [h2]
      exact tryCandidate_sublist hc
    | none, h =>
      have hpc : poolc = pool := tryCandidate_none hc
      rw [hpc] at h
      exact ih pool h

theorem tryCandidates_none {comps : List String} :
    ∀ (idxs : List Nat) (pool : List String) {pool' : List String},
    tryCandidates comps idxs pool = (none, pool') → pool' = pool := by
  intro idxs
  induction idxs with
  | nil =>
    intro pool pool' h
    rw [tryCandidates] at h
    exact (congrArg Prod.snd h).symm
  | cons i is ih =>
    intro pool pool' h
    rw [tryCandidates] at h
    rcases hc : tryCandidate comps i pool with ⟨ro, poolc⟩
    rw [hc] at h
    match ro, h with
    | some s, h =>
      have := congrArg Prod.fst h
      simp at this
    | none, h =>
      have hpc : poolc = pool := tryCandidate_none hc
      rw [hpc] at h
      exact ih pool h

theorem tryCandidates_some {e : String} :
    ∀ (idxs : List Nat) (pool : List String) {S : FileSequence} {pool' : List String},
    (∀ i ∈ idxs, i % 2 = 1 ∧ i + 2 ≤ (components e).length) →
    tryCandidates (components e) idxs pool = (some S, pool') →
    (e :: pool).Perm (enumNames S ++ pool') ∧ pool'.Sublist pool ∧ ProducedGood S := by
  intro idxs
  induction idxs with
  | nil =>
    intro pool S pool' _ h
    rw [tryCandidates] at h
    have := congrArg Prod.fst h
    simp at this
  | cons i is ih =>
    intro pool S pool' hidx h
    rw [tryCandidates] at h
    rcases hc : tryCandidate (components e) i pool with ⟨ro, poolc⟩
    rw [hc] at h
    match ro, h with
    | some s, h =>
      have h1 := congrArg Prod.fst h
      simp only [Option.some_inj] at h1
      have h2 := (congrArg Prod.snd h).symm
      simp only at h2
      obtain ⟨hi1, hi2⟩ := hidx i (List.mem_cons_self _ _)
      rw [h2]
      rw [← h1]
      exact tryCandidate_some hi1 hi2 hc
    | none, h =>
      have hpc : poolc = pool := tryCandidate_none hc
      rw [hpc] at h
      exact ih pool (fun j hj => hidx j (List.mem_cons_of_mem _ hj)) h

/-! ### The main detection loop -/

theorem detectLoopF_isSome :
    ∀ (fuel : Nat) (pool : List String) (seqs : List FileSequence) (others : List String),
    pool.length ≤ fuel → (detectLoopF fuel pool seqs others).isSome = true := by
  intro fuel
  induction fuel with
  | zero =>
    intro pool seqs others hle
    have : pool = [] := List.length_eq_zero.mp (by omega)
    rw [this, detectLoopF]
    rfl
  | succ fuel ih =>
    intro pool seqs others hle
    match pool with
    | [] => rw [detectLoopF]; rfl
    | e :: rest =>
      rw [detectLoopF]
      rcases hc : tryCandidates (components e)
          (candidateIndices (components e).length) rest with ⟨ro, pool'⟩
      have hsub : pool'.Sublist rest := tryCandidates_sublist _ _ hc
      have hlen : pool'.length ≤ rest.length := hsub.length_le
      simp only [List.length_cons] at hle
      match ro with
      | some s =>
        exact ih pool' (seqs ++ [s]) others (by omega)
      | none =>
        exact ih pool' seqs (others ++ [e]) (by omega)

theorem perm_swap_mid {α : Type} (A E O P : List α) :
    (A ++ E ++ O ++ P).Perm (A ++ O ++ (E ++ P)) := by
  have h2 : (E ++ O).Perm (O ++ E) := List.perm_append_comm
  have h3 := h2.append_right P
  have h4 : E ++ O ++ P = E ++ (O ++ P) := List.append_assoc ..
  have h5 : O ++ E ++ P = O ++ (E ++ P) := List.append_assoc ..
  rw [h4, h5] at h3
  have h6 := h3.append_left A
  have h7 : A ++ E ++ O ++ P = A ++ (E ++ (O ++ P)) := by simp [List.append_assoc]
  have h8 : A ++ O ++ (E ++ P) = A ++ (O ++ (E ++ P)) := by simp [List.append_assoc]
  rw [h7, h8]
  exact h6

theorem detectLoopF_sound :
    ∀ (fuel : Nat) (pool : List String) (seqs : List FileSequence) (others : List String)
    {out : List FileSequence × List String × List String},
    detectLoopF fuel pool seqs others = some out →
    (out.1.flatMap enumNames ++ out.2.1).Perm ((seqs.flatMap enumNames ++ others) ++ pool) ∧
    out.2.2 = [] ∧
    (∀ S ∈ out.1, S ∈ seqs ∨ ProducedGood S) := by
  intro fuel
  induction fuel with
  | zero =>
    intro pool seqs others out h
    match pool with
    | [] =>
      rw [detectLoopF] at h
      have hout : out = (seqs, others, []) := (Option.some_inj.mp h).symm
      rw [hout]
      refine ⟨by simp, rfl, fun S hS => Or.inl hS⟩
    | e :: rest =>
      rw [detectLoopF] at h
      simp at h
  | succ fuel ih =>
    intro pool seqs others out h
    match pool with
    | [] =>
      rw [detectLoopF] at h
      have hout : out = (seqs, others, []) := (Option.some_inj.mp h).symm
      rw [hout]
      refine ⟨by simp, rfl, fun S hS => Or.inl hS⟩
    | e :: rest =>
      rw [detectLoopF] at h
      rcases hc : tryCandidates (components e)
          (candidateIndices (components e).length) rest with ⟨ro, pool'⟩
      rw [hc] at h
      match ro, h with
      | some s, h =>
        obtain ⟨hperm, hnil, hgood⟩ := ih pool' (seqs ++ [s]) others h
        have hcand : (e :: rest).Perm (enumNames s ++ pool') ∧ pool'.Sublist rest ∧
            ProducedGood s := by
          apply tryCandidates_some _ _ _ hc
          intro j hj
          have hodd := altParts_length_odd (tokAux e.data) (tokAux_valid e.data)
          rw [← components_length] at hodd
          exact ((candidateIndices_mem hodd).mp hj).imp id (fun hh => hh.2)
        refine ⟨?_, hnil, ?_⟩
        · apply hperm.trans
          have hax : (seqs ++ [s]).flatMap enumNames ++ others ++ pool' =
              seqs.flatMap enumNames ++ enumNames s ++ others ++ pool' := by
            rw [List.flatMap_append]
            simp
          rw [hax]
          apply (perm_swap_mid _ _ _ _).trans
          exact (hcand.1.symm).append_left _
        · intro S hS
          rcases hgood S hS with hin | hg
          · rcases List.mem_append.mp hin with hin2 | hin2
            · exact Or.inl hin2
            · right
              have hSs : S = s := by simpa using hin2
              rw [hSs]
              exact hcand.2.2
          · exact Or.inr hg
      | none, h =>
        have hpc : pool' = rest := tryCandidates_none _ _ hc
        rw [hpc] at h
        obtain ⟨hperm, hnil, hgood⟩ := ih rest seqs (others ++ [e]) h
        refine ⟨?_, hnil, fun S hS => hgood S hS⟩
        apply hperm.trans
        have heq : seqs.flatMap enumNames ++ (others ++ [e]) ++ rest =
            seqs.flatMap enumNames ++ others ++ (e :: rest) := by
          simp [List.append_assoc]
        rw [heq]

/-! ### `find_in_list` top-level characterisation -/

theorem find_in_listFull_eq (L : List String) :
    detectLoopF (sortEntries L).length (sortEntries L) [] [] = some (find_in_listFull L) := by
  have hs := detectLoopF_isSome (sortEntries L).length (sortEntries L) [] [] (le_refl _)
  rw [find_in_listFull]
  match hd : detectLoopF (sortEntries L).length (sortEntries L) [] [] with
  | some out => rfl
  | none => rw [hd] at hs; simp at hs

theorem sortEntries_perm (L : List String) : (sortEntries L).Perm L :=
  List.perm_insertionSort _ L

theorem find_in_list_spec (L : List String) :
    ((find_in_list L).1.flatMap enumNames ++ (find_in_list L).2).Perm L ∧
    (∀ S ∈ (find_in_list L).1, ProducedGood S) ∧
    entriesAfterFind L = [] := by
  have hsound := detectLoopF_sound (sortEntries L).length (sortEntries L) [] []
    (find_in_listFull_eq L)
  obtain ⟨hperm, hnil, hgood⟩ := hsound
  refine ⟨?_, ?_, hnil⟩
  · rw [find_in_list]
    simp only []
    apply hperm.trans
    simp only [List.flatMap_nil, List.nil_append]
    exact sortEntries_perm L
  · intro S hS
    rcases hgood S hS with hin | hg
    · exact absurd hin (List.not_mem_nil S)
    · exact hg

/-! ### Claim theorems (first batch) -/

/-- C1: partition completeness of detection.  For every list of distinct
filename strings, the concatenation of all filenames enumerated by the
returned sequences together with `others` is a permutation of the input
and has no duplicates: every input name appears in exactly one place
(inside exactly one sequence enumeration or once in `others`), no name is
invented, none is lost. -/
theorem c1_partition_completeness (L : List String) (hL : L.Nodup) :
    ((find_in_list L).1.flatMap enumNames ++ (find_in_list L).2).Perm L ∧
    ((find_in_list L).1.flatMap enumNames ++ (find_in_list L).2).Nodup := by
  have hperm := (find_in_list_spec L).1
  exact ⟨hperm, (hperm.nodup_iff).mpr hL⟩

theorem c1_partition_completeness_witness :
    (["a.0001.ext", "a.0002.ext", "readme"] : List String).Nodup ∧
    (((find_in_list ["a.0001.ext", "a.0002.ext", "readme"]).1.flatMap enumNames ++
        (find_in_list ["a.0001.ext", "a.0002.ext", "readme"]).2).Perm
      ["a.0001.ext", "a.0002.ext", "readme"] ∧
     ((find_in_list ["a.0001.ext", "a.0002.ext", "readme"]).1.flatMap enumNames ++
        (find_in_list ["a.0001.ext", "a.0002.ext", "readme"]).2).Nodup) :=
  ⟨by decide, c1_partition_completeness ["a.0001.ext", "a.0002.ext", "readme"] (by decide)⟩

/-- C3: padding preference.  On `["0998", "0999", "1000"]` the detector
returns exactly one sequence, `first = 998`, `last = 1000`, `padding = 4`,
with empty head, tail and `others` — not two fragments. -/
theorem c3_padding_preference :
    find_in_list ["0998", "0999", "1000"] =
      ([{ path := "", head := "", tail := "", first := 998, last := 1000, padding := 4 }],
        []) := by
  decide

/-- C4 as stated is false: `find_in_list` mutates (in fact empties) the
caller's list.  This counterexample shows the list `["a"]` does not keep
its elements across the call. -/
theorem c4_counterexample : ¬ (entriesAfterFind ["a"] = ["a"]) := by decide

/-- C4 amended: `find_in_list` sorts the caller's list in place and then
pops every element off it, so after the call the caller's list is always
empty, never equal to a non-empty original. -/
theorem c4_amended_entries_emptied (L : List String) : entriesAfterFind L = [] :=
  (find_in_list_spec L).2.2

/-- C5: no singleton sequences.  Every returned sequence satisfies
`first < last` (length at least 2), and the single input
`["frame5.png"]` produces no sequence at all. -/
theorem c5_no_singletons (L : List String) :
    (∀ S ∈ (find_in_list L).1, S.first < S.last) ∧
    find_in_list ["frame5.png"] = ([], ["frame5.png"]) := by
  refine ⟨fun S hS => ((find_in_list_spec L).2.1 S hS).2.2.1, by decide⟩

theorem c5_no_singletons_witness :
    (⟨"", "a.", ".ext", 1, 3, 4⟩ : FileSequence) ∈
      (find_in_list ["a.0001.ext", "a.0003.ext", "a.0002.ext"]).1 ∧
    ((⟨"", "a.", ".ext", 1, 3, 4⟩ : FileSequence).first <
      (⟨"", "a.", ".ext", 1, 3, 4⟩ : FileSequence).last) :=
  ⟨by decide, (c5_no_singletons ["a.0001.ext", "a.0003.ext", "a.0002.ext"]).1 _ (by decide)⟩

/-- C9: detector totality and termination.  The fuelled while-loop, run
with fuel equal to the pool size (one unit per iteration as in the
source, where each iteration pops at least one entry), always reaches the
empty pool and returns a result: there is no failure path and no
non-termination for any input list. -/
theorem c9_detector_total (L : List String) :
    detectLoopF (sortEntries L).length (sortEntries L) [] [] = some (find_in_listFull L) :=
  find_in_listFull_eq L

/-! ### Claim theorems: `FileSequence` methods -/

theorem pyZfill_of_le {s : String} {w : Nat} (h : w ≤ s.length) : pyZfill s w = s := by
  rw [pyZfill, if_pos h]

/-- C6: `filename` contract.  `filename(number)` returns
`head ++ zfill(str(number), padding) ++ tail` exactly when
`first ≤ number ≤ last` and raises `IndexError` (OutOfRange) otherwise;
for non-negative numbers, `zfill` keeps the natural decimal form verbatim
when `padding = 0` or when the natural form is at least `padding` wide,
and otherwise left-pads it with zeros to exactly `padding` characters. -/
theorem c6_filename_contract (fs : FileSequence) (n : Int) :
    (fs.filename n = .ok (fs.head ++ pyZfill (pyStr n) fs.padding ++ fs.tail) ↔
      fs.first ≤ n ∧ n ≤ fs.last) ∧
    ((n < fs.first ∨ fs.last < n) →
      fs.filename n = .error (.indexError "number out of sequence range")) ∧
    (fs.padding = 0 → pyZfill (pyStr n) fs.padding = pyStr n) ∧
    (fs.padding ≤ (pyStr n).length → pyZfill (pyStr n) fs.padding = pyStr n) ∧
    (0 ≤ n → (pyStr n).length ≤ fs.padding →
      (pyZfill (pyStr n) fs.padding).data =
        List.replicate (fs.padding - (pyStr n).length) '0' ++ (pyStr n).data) := by
  refine ⟨?_, ?_, ?_, ?_, ?_⟩
  · constructor
    · intro hok
      by_cases hin : fs.first ≤ n ∧ n ≤ fs.last
      · exact hin
      · rw [FileSequence.filename, if_neg hin] at hok
        exact absurd hok (by simp)
    · intro hin
      rw [FileSequence.filename, if_pos hin]
  · intro hout
    rw [FileSequence.filename, if_neg (by omega)]
  · intro hp
    rw [hp]
    exact pyZfill_zero
  · intro hp
    exact pyZfill_of_le hp
  · intro hn hp
    rw [pyStr_nonneg hn, pyZfill_pyStrNat_data]

theorem c6_filename_contract_witness :
    (⟨"", "a.", ".ext", 1, 3, 4⟩ : FileSequence).filename 2 =
      .ok ("a." ++ pyZfill (pyStr 2) 4 ++ ".ext") :=
  (c6_filename_contract ⟨"", "a.", ".ext", 1, 3, 4⟩ 2).1.mpr (by decide)

/-- C7: indexed access.  `elementAt` with a non-negative key `k` returns
`filename(first + k)`; with a negative key it returns
`filename(last - (k * -1) + 1)`, so key `-1` resolves to the absolute
number `last`; whenever the resolved number is outside `[first, last]`
the call raises `IndexError` (OutOfRange). -/
theorem c7_indexed_access (fs : FileSequence) (k : Int) :
    (0 ≤ k → fs.getItemInt k = fs.filename (fs.first + k)) ∧
    (k < 0 → fs.getItemInt k = fs.filename (fs.last - k * -1 + 1)) ∧
    fs.getItemInt (-1) = fs.filename fs.last ∧
    (0 ≤ k → (fs.first + k < fs.first ∨ fs.last < fs.first + k) →
      fs.getItemInt k = .error (.indexError "number out of sequence range")) ∧
    (k < 0 → (fs.last - k * -1 + 1 < fs.first ∨ fs.last < fs.last - k * -1 + 1) →
      fs.getItemInt k = .error (.indexError "number out of sequence range")) := by
  refine ⟨?_, ?_, ?_, ?_, ?_⟩
  · intro hk
    rw [FileSequence.getItemInt, if_pos hk]
  · intro hk
    rw [FileSequence.getItemInt, if_neg (by omega)]
  · rw [FileSequence.getItemInt, if_neg (by omega)]
    have harg : fs.last - (-1 : Int) * -1 + 1 = fs.last := by ring
    rw [harg]
  · intro hk hout
    rw [FileSequence.getItemInt, if_pos hk, FileSequence.filename, if_neg (by omega)]
  · intro hk hout
    rw [FileSequence.getItemInt, if_neg (by omega), FileSequence.filename, if_neg (by omega)]

theorem c7_indexed_access_witness :
    (⟨"", "s.", ".e", 1, 5, 2⟩ : FileSequence).getItemInt 2 =
      (⟨"", "s.", ".e", 1, 5, 2⟩ : FileSequence).filename (1 + 2) :=
  (c7_indexed_access ⟨"", "s.", ".e", 1, 5, 2⟩ 2).1 (by decide)

theorem pyRepeat_zero {c : String} : pyRepeat c 0 = "" := rfl

theorem pyRepeat_succ {c : String} {k : Nat} : pyRepeat c (k + 1) = c ++ pyRepeat c k := rfl

/-- C8: the `padchars` template field.  The substitution value bound to
`padchars` is the pad character repeated `padding` times when
`padding > 0` and a single copy of the pad character when `padding = 0`;
rendering the template on head `"my_sequence."`, tail `".ext"`,
padding 4 with the default `'#'` yields `"my_sequence.####.ext"`. -/
theorem c8_padchars (fs : FileSequence) (c : String) :
    lookupVal "padchars" (formatValues fs c) =
      some (if fs.padding = 0 then c else pyRepeat c fs.padding) ∧
    (⟨"", "my_sequence.", ".ext", 1, 5, 4⟩ : FileSequence).formatPy
      "{head}{padchars}{tail}" "#" = .ok ("my_sequence.####.ext") := by
  constructor
  · rw [formatValues]
    rw [lookupVal, if_neg (by decide), lookupVal, if_neg (by decide), lookupVal,
      if_neg (by decide), lookupVal, if_neg (by decide), lookupVal, if_neg (by decide),
      lookupVal, if_neg (by decide), lookupVal, if_pos rfl]
    congr 1
    match hp : fs.padding with
    | 0 => rw [pyRepeat_zero, if_pos rfl, if_pos rfl]
    | k + 1 =>
      rw [if_neg (show ¬(k + 1 = 0) from by omega)]
      by_cases hrep : pyRepeat c (k + 1) = ""
      · rw [if_pos hrep, hrep]
        rw [pyRepeat_succ] at hrep
        have hd := congrArg String.data hrep
        rw [String.data_append] at hd
        apply String.ext
        have hcd : c.data = [] := by
          have hlen := congrArg List.length hd
          simp at hlen
          exact List.length_eq_zero.mp hlen.1
        rw [hcd]
      · rw [if_neg hrep]
  · rfl

/-- C10: the constructor discards its `path` argument.  Whatever value is
passed as `path`, the constructed object's `path` attribute is the empty
string (the source assigns `self.path = ""`). -/
theorem c10_path_discarded (path head tail : String) (first last : Int) (padding : Nat) :
    (FileSequence.init path head tail first last padding).path = "" := rfl

/-! ### Order theory of the lexicographic comparison used by `entries.sort()` -/

theorem listLtB_irrefl : ∀ x : List Char, listLtB x x = false := by
  intro x
  induction x with
  | nil => rfl
  | cons a as ih =>
    rw [listLtB]
    simp only [Bool.or_eq_false_iff, Bool.and_eq_false_iff]
    constructor
    · simp only [decide_eq_false_iff_not]
      omega
    · right
      exact ih

theorem listLtB_asymm : ∀ {x y : List Char}, listLtB x y = true → listLtB y x = false := by
  intro x
  induction x with
  | nil =>
    intro y h
    match y with
    | [] => rw [listLtB] at h; simp at h
    | b :: bs => rw [listLtB]
  | cons a as ih =>
    intro y h
    match y with
    | [] => rw [listLtB] at h; simp at h
    | b :: bs =>
      rw [listLtB] at h ⊢
      simp only [Bool.or_eq_true, decide_eq_true_eq, Bool.and_eq_true] at h
      simp only [Bool.or_eq_false_iff, Bool.and_eq_false_iff, decide_eq_false_iff_not]
      rcases h with hlt | ⟨heq, hrec⟩
      · constructor
        · omega
        · left
          intro hba
          rw [hba] at hlt
          omega
      · subst heq
        refine ⟨by omega, Or.inr (ih hrec)⟩

theorem listLtB_conn : ∀ {x y : List Char}, listLtB x y = false → listLtB y x = true ∨ x = y := by
  intro x
  induction x with
  | nil =>
    intro y h
    match y with
    | [] => exact Or.inr rfl
    | b :: bs => rw [listLtB] at h; simp at h
  | cons a as ih =>
    intro y h
    match y with
    | [] => left; rw [listLtB]
    | b :: bs =>
      rw [listLtB] at h
      simp only [Bool.or_eq_false_iff, Bool.and_eq_false_iff, decide_eq_false_iff_not] at h
      obtain ⟨hnlt, hrest⟩ := h
      by_cases hab : a = b
      · subst hab
        rcases hrest with hne | hrec
        · exact absurd rfl hne
        · rcases ih hrec with hlt | heq
          · left
            rw [listLtB]
            simp only [Bool.or_eq_true, decide_eq_true_eq, Bool.and_eq_true]
            exact Or.inr ⟨trivial, hlt⟩
          · right
            rw [heq]
      · left
        rw [listLtB]
        simp only [Bool.or_eq_true, decide_eq_true_eq]
        left
        have hne2 : a.toNat ≠ b.toNat := fun he => hab (char_toNat_inj he)
        omega

theorem listLtB_trans : ∀ {x y z : List Char},
    listLtB x y = true → listLtB y z = true → listLtB x z = true := by
  intro x
  induction x with
  | nil =>
    intro y z h1 h2
    match y, z with
    | [], _ => rw [listLtB] at h1; simp at h1
    | _ :: _, [] => rw [listLtB] at h2; simp at h2
    | _ :: _, _ :: _ => rw [listLtB]
  | cons a as ih =>
    intro y z h1 h2
    match y, z with
    | [], _ => rw [listLtB] at h1; simp at h1
    | _ :: _, [] => rw [listLtB] at h2; simp at h2
    | b :: bs, c :: cs =>
      rw [listLtB] at h1 h2 ⊢
      simp only [Bool.or_eq_true, decide_eq_true_eq, Bool.and_eq_true] at h1 h2 ⊢
      rcases h1 with hlt1 | ⟨heq1, hrec1⟩ <;> rcases h2 with hlt2 | ⟨heq2, hrec2⟩
      · left; omega
      · subst heq2
        left; exact hlt1
      · subst heq1
        left; exact hlt2
      · subst heq1; subst heq2
        right
        exact ⟨rfl, ih hrec1 hrec2⟩

theorem bool_not_true_eq_false {b : Bool} (h : (!b) = true) : b = false := by
  cases b
  · rfl
  · simp at h

theorem strLeB_total : ∀ a b : String, strLeB a b = true ∨ strLeB b a = true := by
  intro a b
  rw [strLeB, strLeB, strLtB, strLtB]
  by_cases h : listLtB b.data a.data = true
  · right
    rw [listLtB_asymm h]
    rfl
  · left
    have hf : listLtB b.data a.data = false := by
      revert h
      cases listLtB b.data a.data <;> simp
    rw [hf]
    rfl

theorem strLeB_trans : ∀ a b c : String,
    strLeB a b = true → strLeB b c = true → strLeB a c = true := by
  intro a b c h1 h2
  rw [strLeB, strLtB] at h1 h2 ⊢
  have h1' : listLtB b.data a.data = false := bool_not_true_eq_false h1
  have h2' : listLtB c.data b.data = false := bool_not_true_eq_false h2
  have hgoal : listLtB c.data a.data = false := by
    by_contra hcab
    have hca : listLtB c.data a.data = true := by
      revert hcab
      cases listLtB c.data a.data <;> simp
    rcases listLtB_conn h1' with hab | hab <;> rcases listLtB_conn h2' with hbc | hbc
    · have h3 := listLtB_trans hca hab
      rw [listLtB_asymm hbc] at h3
      exact Bool.false_ne_true h3
    · rw [hbc] at hca
      rw [h1'] at hca
      exact Bool.false_ne_true hca
    · rw [← hab] at hca
      rw [listLtB_asymm hbc] at hca
      exact Bool.false_ne_true hca
    · rw [hbc, ← hab] at hca
      rw [listLtB_irrefl] at hca
      exact Bool.false_ne_true hca
  rw [hgoal]
  rfl

instance : IsTotal String (fun a b => strLeB a b = true) := ⟨strLeB_total⟩

instance : IsTrans String (fun a b => strLeB a b = true) := ⟨fun a b c => strLeB_trans a b c⟩

theorem sortEntries_sorted (L : List String) :
    List.Sorted (fun a b => strLeB a b = true) (sortEntries L) :=
  List.sorted_insertionSort _ L

/-! ### Comparing rendered counter strings lexicographically -/

theorem parseL_cons {c : Char} {cs : List Char} :
    parseL (c :: cs) = digVal c * 10 ^ cs.length + parseL cs := by
  rw [parseL, List.foldl_cons]
  have h := @parseL_from (10 * 0 + digVal c) cs
  rw [h]
  ring

theorem listLtB_head_lt {a b : Char} (h : a.toNat < b.toNat) (u v : List Char) :
    listLtB (a :: u) (b :: v) = true := by
  rw [listLtB]
  simp only [Bool.or_eq_true, decide_eq_true_eq]
  left
  exact h

theorem listLtB_append_left {h : List Char} : ∀ {u v : List Char},
    listLtB (h ++ u) (h ++ v) = listLtB u v := by
  induction h with
  | nil => intro u v; rfl
  | cons c cs ih =>
    intro u v
    rw [List.cons_append, List.cons_append, listLtB]
    simp only [decide_eq_true_eq]
    rw [ih]
    simp

theorem listLtB_digits : ∀ {x y : List Char}, x.length = y.length →
    (∀ c ∈ x, c.isDigit = true) → (∀ c ∈ y, c.isDigit = true) →
    parseL x < parseL y → listLtB x y = true := by
  intro x
  induction x with
  | nil =>
    intro y hlen _ _ hp
    have hy : y = [] := by
      rw [List.length_nil] at hlen
      exact (List.length_eq_zero.mp hlen.symm)
    rw [hy] at hp
    exact absurd hp (by rw [parseL]; simp)
  | cons a as ih =>
    intro y hlen hdx hdy hp
    match y, hlen with
    | b :: bs, hlen =>
      have hlen2 : as.length = bs.length := by
        simp only [List.length_cons] at hlen
        omega
      have hda : a.isDigit = true := hdx a (List.mem_cons_self _ _)
      have hdb : b.isDigit = true := hdy b (List.mem_cons_self _ _)
      have hba := isDigit_iff.mp hda
      have hbb := isDigit_iff.mp hdb
      rw [parseL_cons, parseL_cons, hlen2] at hp
      have hpas : parseL as < 10 ^ as.length :=
        parseL_lt (fun c hc => hdx c (List.mem_cons_of_mem _ hc))
      have hpbs : parseL bs < 10 ^ bs.length :=
        parseL_lt (fun c hc => hdy c (List.mem_cons_of_mem _ hc))
      rw [hlen2] at hpas
      by_cases hab : digVal a < digVal b
      · apply listLtB_head_lt
        rw [digVal, digVal] at hab
        omega
      · by_cases hab2 : digVal a = digVal b
        · have haeb : a = b := by
            apply char_toNat_inj
            rw [digVal, digVal] at hab2
            omega
          subst haeb
          rw [listLtB]
          simp only [Bool.or_eq_true, decide_eq_true_eq, Bool.and_eq_true]
          right
          refine ⟨trivial, ih hlen2 (fun c hc => hdx c (List.mem_cons_of_mem _ hc))
            (fun c hc => hdy c (List.mem_cons_of_mem _ hc)) ?_⟩
          omega
        · exfalso
          have hgt : digVal b < digVal a := by omega
          have hge : (digVal b + 1) * 10 ^ bs.length ≤ digVal a * 10 ^ bs.length := by
            apply Nat.mul_le_mul_right
            omega
          have hC : (digVal b + 1) * 10 ^ bs.length =
              digVal b * 10 ^ bs.length + 10 ^ bs.length := by ring
          omega

theorem pyZfill_pyStrNat_all_digits {m w : Nat} :
    ∀ c ∈ (pyZfill (pyStrNat m) w).data, c.isDigit = true := by
  intro c hc
  rw [pyZfill_pyStrNat_data] at hc
  rcases List.mem_append.mp hc with hr | hs
  · have : c = '0' := List.eq_of_mem_replicate hr
    rw [this]
    exact zeroChar_isDigit
  · exact pyStrNat_all_digits c hs

theorem parseL_zfill_int {n : Int} (hn : 0 ≤ n) {p : Nat} :
    parseL (pyZfill (pyStr n) p).data = n.toNat := by
  rw [pyStr_nonneg hn, parseL_zfill_pyStrNat]

/-! ### The rendered names of a sequence -/

/-- The filename a sequence renders for counter value `n`. -/
def renderName (S : FileSequence) (n : Int) : String :=
  S.head ++ pyZfill (pyStr n) S.padding ++ S.tail

theorem enumNames_eq_map (S : FileSequence) :
    enumNames S = (intRange S.first S.last).map (renderName S) := rfl

theorem renderName_data (S : FileSequence) (n : Int) :
    (renderName S n).data = S.head.data ++ ((pyZfill (pyStr n) S.padding).data ++ S.tail.data) := by
  rw [renderName, String.data_append, String.data_append, List.append_assoc]

theorem renderName_inj {S : FileSequence} {m n : Int} (hm : 0 ≤ m) (hn : 0 ≤ n)
    (h : renderName S m = renderName S n) : m = n := by
  have hd := congrArg String.data h
  rw [renderName_data, renderName_data] at hd
  have hd2 := List.append_cancel_left hd
  have hlen : (pyZfill (pyStr m) S.padding).data.length =
      (pyZfill (pyStr n) S.padding).data.length := by
    have := congrArg List.length hd2
    simp only [List.length_append] at this
    omega
  have hx := (List.append_inj hd2 hlen).1
  have hm2 : parseL (pyZfill (pyStr m) S.padding).data = m.toNat := parseL_zfill_int hm
  have hn2 : parseL (pyZfill (pyStr n) S.padding).data = n.toNat := parseL_zfill_int hn
  rw [hx, hn2] at hm2
  omega

theorem mem_enumNames {S : FileSequence} {s : String} :
    s ∈ enumNames S ↔ ∃ n, S.first ≤ n ∧ n ≤ S.last ∧ s = renderName S n := by
  rw [enumNames_eq_map, List.mem_map]
  constructor
  · rintro ⟨n, hn, rfl⟩
    rw [mem_intRange] at hn
    exact ⟨n, hn.1, hn.2, rfl⟩
  · rintro ⟨n, h1, h2, rfl⟩
    exact ⟨n, mem_intRange.mpr ⟨h1, h2⟩, rfl⟩

theorem intRange_nodup {a b : Int} : (intRange a b).Nodup := by
  rw [intRange]
  apply List.Nodup.map_on
  · intro x _ y _ hxy
    omega
  · exact List.nodup_range _

theorem enumNames_nodup {S : FileSequence} (h0 : 0 ≤ S.first) : (enumNames S).Nodup := by
  rw [enumNames_eq_map]
  apply List.Nodup.map_on
  · intro x hx y hy hxy
    rw [mem_intRange] at hx hy
    exact renderName_inj (by omega) (by omega) hxy
  · exact intRange_nodup

theorem renderName_fresh {S : FileSequence} (h0 : 0 ≤ S.first) {q : Int} (hq : 0 ≤ q)
    (hout : q < S.first ∨ S.last < q) : renderName S q ∉ enumNames S := by
  intro hmem
  rw [mem_enumNames] at hmem
  obtain ⟨n, hn1, hn2, he⟩ := hmem
  have := renderName_inj (by omega) hq he.symm
  omega

theorem zfill_int_all_digits {n : Int} (hn : 0 ≤ n) {p : Nat} :
    ∀ c ∈ (pyZfill (pyStr n) p).data, c.isDigit = true := by
  rw [pyStr_nonneg hn]
  exact fun c hc => pyZfill_pyStrNat_all_digits c hc

theorem listLtB_append_of_lt : ∀ {x y : List Char}, x.length = y.length →
    listLtB x y = true → ∀ (u v : List Char), listLtB (x ++ u) (y ++ v) = true := by
  intro x
  induction x with
  | nil =>
    intro y hlen hlt u v
    have hy : y = [] := (List.length_eq_zero.mp hlen.symm)
    rw [hy] at hlt
    exact absurd hlt (by rw [listLtB]; simp)
  | cons a as ih =>
    intro y hlen hlt u v
    match y, hlen, hlt with
    | b :: bs, hlen, hlt =>
      rw [List.cons_append, List.cons_append, listLtB]
      rw [listLtB] at hlt
      simp only [Bool.or_eq_true, decide_eq_true_eq, Bool.and_eq_true] at hlt ⊢
      rcases hlt with h | ⟨heq, hrec⟩
      · left; exact h
      · right
        refine ⟨heq, ih ?_ hrec u v⟩
        simp only [List.length_cons] at hlen
        omega

/-- For a padded (`padding ≥ 1`) produced sequence, the rendering of
`first` is the strict lexicographic minimum of the enumeration. -/
theorem renderName_first_min {S : FileSequence} (hPG : ProducedGood S)
    (hp : S.padding ≠ 0) {j : Int} (hj1 : S.first < j) (hj2 : j ≤ S.last) :
    strLtB (renderName S S.first) (renderName S j) = true := by
  obtain ⟨hpath, h0, hfl, hp0, hppos, hhead, htail⟩ := hPG
  obtain ⟨hzf, hlenf⟩ := hppos hp
  rw [strLtB, renderName_data, renderName_data, listLtB_append_left]
  have hdigf := zfill_int_all_digits (n := S.first) (by omega) (p := S.padding)
  have hdigj := zfill_int_all_digits (n := j) (by omega) (p := S.padding)
  have hlenj : (pyZfill (pyStr j) S.padding).length =
      max S.padding (pyStr j).length := by
    rw [pyStr_nonneg (by omega : (0:Int) ≤ j)]
    exact pyZfill_pyStrNat_length
  by_cases hsz : (pyStr j).length ≤ S.padding
  · have hlenjj : (pyZfill (pyStr j) S.padding).length = S.padding := by omega
    have hleq : (pyZfill (pyStr S.first) S.padding).data.length =
        (pyZfill (pyStr j) S.padding).data.length := by
      have e1 : (pyZfill (pyStr S.first) S.padding).data.length =
          (pyZfill (pyStr S.first) S.padding).length := rfl
      have e2 : (pyZfill (pyStr j) S.padding).data.length =
          (pyZfill (pyStr j) S.padding).length := rfl
      omega
    have hplt : parseL (pyZfill (pyStr S.first) S.padding).data <
        parseL (pyZfill (pyStr j) S.padding).data := by
      rw [parseL_zfill_int (by omega), parseL_zfill_int (by omega)]
      omega
    have hcore := listLtB_digits hleq hdigf hdigj hplt
    exact listLtB_append_of_lt hleq hcore _ _
  · have hjfull : pyZfill (pyStr j) S.padding = pyStr j := pyZfill_of_le (by omega)
    obtain ⟨restf, hrestf⟩ := startsWithZero_data hzf
    have hj1' : (1:Int) ≤ j := by omega
    have hjne : j.toNat ≠ 0 := by omega
    have hjhead : ∀ c, (pyStr j).data.head? = some c → c ≠ '0' := by
      rw [pyStr_nonneg (by omega : (0:Int) ≤ j)]
      exact pyStrNat_head_ne_zero hjne
    have hjne2 : (pyStr j).data ≠ [] := by
      rw [pyStr_nonneg (by omega : (0:Int) ≤ j)]
      intro hnil
      have := pyStrNat_length_pos (n := j.toNat)
      rw [String.length, hnil] at this
      simp at this
    obtain ⟨c, restj, hrestj⟩ := List.exists_cons_of_ne_nil hjne2
    have hc0 : c ≠ '0' := hjhead c (by rw [hrestj]; rfl)
    have hcd : c.isDigit = true := by
      apply zfill_int_all_digits (n := j) (by omega) (p := S.padding)
      rw [hjfull, hrestj]
      exact List.mem_cons_self _ _
    rw [hrestf, hjfull, hrestj, List.cons_append, List.cons_append]
    apply listLtB_head_lt
    have hb := isDigit_iff.mp hcd
    have : c.toNat ≠ 48 := by
      intro he
      exact hc0 (char_toNat_inj (by rw [he, zeroChar_toNat]))
    rw [zeroChar_toNat]
    omega

/-! ### Uniqueness of the tokenizer decomposition -/

theorem getLastD_swap {α : Type} {l : List α} (a b : α) (h : l ≠ []) :
    l.getLastD a = l.getLastD b := by
  cases l with
  | nil => exact absurd rfl h
  | cons x xs => rw [List.getLastD_cons, List.getLastD_cons]

theorem tokAux_prepend_lit : ∀ {u : List Char}, (∀ c ∈ u, c.isDigit = false) →
    ∀ {w l : List Char} {more : List (List Char)},
    tokAux w = l :: more → tokAux (u ++ w) = (u ++ l) :: more := by
  intro u
  induction u with
  | nil =>
    intro _ w l more hw
    simpa using hw
  | cons c u' ih =>
    intro hu w l more hw
    have hc : c.isDigit = false := hu c (List.mem_cons_self _ _)
    have ih2 := ih (fun d hd => hu d (List.mem_cons_of_mem _ hd)) hw
    rw [List.cons_append, tokAux]
    simp only [hc, Bool.false_eq_true, if_false]
    rw [ih2]
    rfl

theorem tokAux_digit_cons {c : Char} (hc : c.isDigit = true) {w : List Char}
    (hsafe : ∀ dig more, tokAux w ≠ [] :: dig :: more) :
    tokAux (c :: w) = [] :: [c] :: tokAux w := by
  rw [tokAux]
  simp only [hc, if_true]

theorem tokAux_prepend_dig : ∀ {x : List Char}, x ≠ [] → (∀ c ∈ x, c.isDigit = true) →
    ∀ {w : List Char}, (∀ dig more, tokAux w ≠ [] :: dig :: more) →
    tokAux (x ++ w) = [] :: x :: tokAux w := by
  intro x
  induction x with
  | nil => intro h; exact absurd rfl h
  | cons d x' ih =>
    intro _ hx w hsafe
    have hd : d.isDigit = true := hx d (List.mem_cons_self _ _)
    cases x' with
    | nil => simpa using tokAux_digit_cons hd hsafe
    | cons d2 x'' =>
      have ih2 := ih (List.cons_ne_nil _ _) (fun c hc => hx c (List.mem_cons_of_mem _ hc))
        hsafe
      rw [List.cons_append, tokAux]
      simp only [hd, if_true]
      rw [ih2]

theorem tokAux_of_altParts : ∀ (ps : List (List Char)), AltParts ps →
    tokAux (joinParts ps) = ps
  | [], h => h.elim
  | [lit], h => by
    have hw : tokAux ([] : List Char) = [] :: [] := rfl
    have := tokAux_prepend_lit h hw
    rw [joinParts_cons, joinParts_nil]
    rw [List.append_nil] at this ⊢
    rw [this]
  | lit :: dig :: rest, h => by
    obtain ⟨h1, h2, h3, h4, h5⟩ := h
    have ihr := tokAux_of_altParts rest h5
    have hsafe : ∀ dig' more', tokAux (joinParts rest) ≠ [] :: dig' :: more' := by
      intro dig' more' hne
      rw [ihr] at hne
      have hlen : 1 < rest.length := by
        rw [hne]
        simp only [List.length_cons]
        omega
      have hh := h4 hlen
      rw [hne] at hh
      exact hh rfl
    have step1 := tokAux_prepend_dig h2 h3 hsafe
    rw [ihr] at step1
    have step2 := tokAux_prepend_lit h1 step1
    rw [joinParts_cons, joinParts_cons, List.append_nil] at *
    exact step2

theorem altParts_glue : ∀ (ha : List (List Char)), AltParts ha →
    (1 < ha.length → ha.getLastD [] ≠ []) →
    ∀ (ht : List (List Char)) (x : List Char), AltParts ht →
    (1 < ht.length → ht.headD [] ≠ []) → x ≠ [] → (∀ c ∈ x, c.isDigit = true) →
    AltParts (ha ++ x :: ht)
  | [], h, _, _, _, _, _, _, _ => h.elim
  | [lit], h, _, ht, x, hht, hhd, hx, hxd => ⟨h, hx, hxd, hhd, hht⟩
  | lit :: dig :: rest, h, hlast, ht, x, hht, hhd, hx, hxd => by
    obtain ⟨h1, h2, h3, h4, h5⟩ := h
    have hrest_ne : rest ≠ [] := by
      intro he
      rw [he] at h5
      exact h5
    have hlast' : 1 < rest.length → rest.getLastD [] ≠ [] := by
      intro hl
      have hg := hlast (by simp only [List.length_cons]; omega)
      rw [List.getLastD_cons, List.getLastD_cons] at hg
      rwa [getLastD_swap dig ([] : List Char) hrest_ne] at hg
    refine ⟨h1, h2, h3, ?_, altParts_glue rest h5 hlast' ht x hht hhd hx hxd⟩
    intro _
    cases rest with
    | nil => exact absurd rfl hrest_ne
    | cons r rs =>
      show r ≠ []
      cases rs with
      | nil =>
        have hg := hlast (by simp only [List.length_cons]; omega)
        rw [List.getLastD_cons, List.getLastD_cons, List.getLastD_cons] at hg
        exact hg
      | cons r2 rs2 =>
        have := h4 (by simp only [List.length_cons]; omega)
        exact this

theorem tokAux_single_lit {c : Char} (hc : c.isDigit = false) : tokAux [c] = [[c]] := by
  have hw : tokAux ([] : List Char) = [] :: [] := rfl
  have := tokAux_prepend_lit (u := [c])
    (by intro d hd; rw [List.mem_singleton.mp hd]; exact hc) hw
  simpa using this

theorem tokAux_getLastD : ∀ (s : List Char), s ≠ [] →
    (∀ c, s.getLast? = some c → c.isDigit = false) → (tokAux s).getLastD [] ≠ []
  | [], h, _ => absurd rfl h
  | [c], _, hlast => by
    have hc : c.isDigit = false := hlast c (by simp)
    rw [tokAux_single_lit hc, List.getLastD_cons]
    exact List.cons_ne_nil _ _
  | c :: d :: s', _, hlast => by
    have hlast' : ∀ x, (d :: s').getLast? = some x → x.isDigit = false := by
      intro x hx
      exact hlast x (by rw [List.getLast?_cons_cons]; exact hx)
    have ih := tokAux_getLastD (d :: s') (List.cons_ne_nil _ _) hlast'
    by_cases hc : c.isDigit
    · rw [tokAux]
      simp only [hc, if_true]
      match htk : tokAux (d :: s') with
      | [] => exact absurd htk (tokAux_ne_nil _)
      | [[]] =>
        have hj := tokAux_join (d :: s')
        rw [htk] at hj
        simp only [joinParts_cons, joinParts_nil, List.nil_append] at hj
        exact absurd hj.symm (List.cons_ne_nil _ _)
      | [] :: dig :: more =>
        rw [htk] at ih
        cases more with
        | nil =>
          rw [List.getLastD_cons, List.getLastD_cons]
          exact List.cons_ne_nil _ _
        | cons m ms =>
          rw [List.getLastD_cons, List.getLastD_cons] at ih ⊢
          rwa [getLastD_swap (c :: dig) dig (List.cons_ne_nil _ _)]
      | (x :: l) :: more =>
        rw [htk] at ih
        rw [List.getLastD_cons, List.getLastD_cons]
        rwa [getLastD_swap [c] ([] : List Char) (List.cons_ne_nil _ _)]
    · have hcf : c.isDigit = false := by
        cases hcc : c.isDigit with
        | false => rfl
        | true => exact absurd hcc hc
      rw [tokAux]
      simp only [hcf, Bool.false_eq_true, if_false]
      match htk : tokAux (d :: s') with
      | [] => exact absurd htk (tokAux_ne_nil _)
      | lit :: more =>
        rw [htk] at ih
        cases more with
        | nil =>
          rw [List.getLastD_cons]
          exact List.cons_ne_nil _ _
        | cons m ms =>
          rw [List.getLastD_cons] at ih ⊢
          rwa [getLastD_swap (c :: lit) lit (List.cons_ne_nil _ _)]

theorem tokAux_headD (s : List Char) (hne : s ≠ [])
    (hhd : ∀ c, s.head? = some c → c.isDigit = false) : (tokAux s).headD [] ≠ [] := by
  cases s with
  | nil => exact absurd rfl hne
  | cons c s' =>
    have hc : c.isDigit = false := hhd c rfl
    rw [tokAux]
    simp only [hc, Bool.false_eq_true, if_false]
    match htk : tokAux s' with
    | [] => exact absurd htk (tokAux_ne_nil _)
    | lit :: more => exact List.cons_ne_nil _ _

theorem tokAux_three {H T : String} {x : List Char}
    (hH : ∀ c, H.data.getLast? = some c → c.isDigit = false)
    (hT : ∀ c, T.data.head? = some c → c.isDigit = false)
    (hx : x ≠ []) (hxd : ∀ c ∈ x, c.isDigit = true) :
    tokAux (H.data ++ x ++ T.data) = tokAux H.data ++ x :: tokAux T.data := by
  have hps : AltParts (tokAux H.data ++ x :: tokAux T.data) := by
    apply altParts_glue _ (tokAux_valid H.data) ?_ _ x (tokAux_valid T.data) ?_ hx hxd
    · intro hl
      have hHne : H.data ≠ [] := by
        intro he
        rw [he] at hl
        have h1 : tokAux ([] : List Char) = [[]] := rfl
        rw [h1] at hl
        simp at hl
      exact tokAux_getLastD H.data hHne hH
    · intro hl
      have hTne : T.data ≠ [] := by
        intro he
        rw [he] at hl
        have h1 : tokAux ([] : List Char) = [[]] := rfl
        rw [h1] at hl
        simp at hl
      exact tokAux_headD T.data hTne hT
  have hjoin : joinParts (tokAux H.data ++ x :: tokAux T.data) = H.data ++ x ++ T.data := by
    rw [joinParts_append, joinParts_cons, tokAux_join, tokAux_join, List.append_assoc]
  have h2 := tokAux_of_altParts _ hps
  rw [hjoin] at h2
  exact h2

theorem zfill_int_ne_nil {n : Int} (hn : 0 ≤ n) {p : Nat} :
    (pyZfill (pyStr n) p).data ≠ [] := by
  have h1 : pyStr n = pyStrNat n.toNat := pyStr_nonneg hn
  have hlen : (pyZfill (pyStr n) p).length = max p (pyStrNat n.toNat).length := by
    rw [h1]
    exact pyZfill_pyStrNat_length
  have hpos := pyStrNat_length_pos (n := n.toNat)
  intro he
  have h0 : (pyZfill (pyStr n) p).length = 0 := by
    show (pyZfill (pyStr n) p).data.length = 0
    rw [he]
    rfl
  omega

theorem components_renderName {S : FileSequence}
    (hH : ∀ c, S.head.data.getLast? = some c → c.isDigit = false)
    (hT : ∀ c, S.tail.data.head? = some c → c.isDigit = false)
    {n : Int} (hn : 0 ≤ n) :
    components (renderName S n) =
      components S.head ++ pyZfill (pyStr n) S.padding :: components S.tail := by
  have h3 := tokAux_three (x := (pyZfill (pyStr n) S.padding).data) hH hT
    (zfill_int_ne_nil hn (p := S.padding)) (zfill_int_all_digits hn (p := S.padding))
  rw [components, renderName_data, ← List.append_assoc, h3, List.map_append, List.map_cons]
  rfl

/-! ### Exact runs of the neighbour scans over a full enumeration -/

theorem scanUpF_run {f : Int → String} : ∀ (fuel : Nat) (n b : Int) (pool extra : List String),
    n ≤ b + 1 →
    pool.Perm ((intRange n b).map f ++ extra) →
    (∀ p q : Int, n ≤ p → p ≤ b → n ≤ q → q ≤ b → f p = f q → p = q) →
    (∀ p : Int, n ≤ p → p ≤ b → f p ∉ extra) →
    f (b + 1) ∉ extra →
    (b + 1 - n).toNat ≤ fuel →
    ∃ pool', scanUpF f fuel pool n = (pool', b) ∧ pool'.Perm extra := by
  intro fuel
  induction fuel with
  | zero =>
    intro n b pool extra hnb hperm hinj hex hfr hfuel
    have hn : n = b + 1 := by omega
    rw [hn, intRange_empty (by omega), List.map_nil, List.nil_append] at hperm
    refine ⟨pool, ?_, hperm⟩
    rw [scanUpF]
    simp only [Prod.mk.injEq]
    exact ⟨trivial, by omega⟩
  | succ fuel ih =>
    intro n b pool extra hnb hperm hinj hex hfr hfuel
    by_cases hend : n = b + 1
    · rw [hend, intRange_empty (by omega), List.map_nil, List.nil_append] at hperm
      have hmem : f n ∉ pool := by
        intro hm
        rw [hend] at hm
        exact hfr (hperm.mem_iff.mp hm)
      rw [scanUpF, if_neg hmem]
      refine ⟨pool, ?_, hperm⟩
      simp only [Prod.mk.injEq]
      exact ⟨trivial, by omega⟩
    · have hle : n ≤ b := by omega
      rw [intRange_cons hle, List.map_cons, List.cons_append] at hperm
      have hmem : f n ∈ pool := hperm.mem_iff.mpr (List.mem_cons_self _ _)
      rw [scanUpF, if_pos hmem]
      have herase := hperm.erase (f n)
      rw [List.erase_cons_head] at herase
      exact ih (n + 1) b _ extra (by omega) herase
        (fun p q hp hpb hq hqb heq => hinj p q (by omega) hpb (by omega) hqb heq)
        (fun p hp hpb => hex p (by omega) hpb) hfr (by omega)

theorem scanDownF_run {f : Int → String} : ∀ (fuel : Nat) (n a : Int) (pool extra : List String),
    1 ≤ a → a - 1 ≤ n →
    pool.Perm ((intRange a n).map f ++ extra) →
    (∀ p q : Int, a ≤ p → p ≤ n → a ≤ q → q ≤ n → f p = f q → p = q) →
    (∀ p : Int, a ≤ p → p ≤ n → f p ∉ extra) →
    f (a - 1) ∉ extra →
    (n + 1 - a).toNat ≤ fuel →
    ∃ pool', scanDownF f fuel pool n = (pool', a) ∧ pool'.Perm extra := by
  intro fuel
  induction fuel with
  | zero =>
    intro n a pool extra ha han hperm hinj hex hfr hfuel
    have hn : n = a - 1 := by omega
    rw [hn, intRange_empty (by omega), List.map_nil, List.nil_append] at hperm
    refine ⟨pool, ?_, hperm⟩
    rw [scanDownF]
    simp only [Prod.mk.injEq]
    exact ⟨trivial, by omega⟩
  | succ fuel ih =>
    intro n a pool extra ha han hperm hinj hex hfr hfuel
    by_cases hend : n = a - 1
    · rw [hend, intRange_empty (by omega), List.map_nil, List.nil_append] at hperm
      rw [scanDownF]
      by_cases hg : 1 ≤ n
      · have hmem : f n ∉ pool := by
          intro hm
          rw [hend] at hm
          exact hfr (hperm.mem_iff.mp hm)
        rw [if_pos hg, if_neg hmem]
        refine ⟨pool, ?_, hperm⟩
        simp only [Prod.mk.injEq]
        exact ⟨trivial, by omega⟩
      · rw [if_neg hg]
        refine ⟨pool, ?_, hperm⟩
        simp only [Prod.mk.injEq]
        exact ⟨trivial, by omega⟩
    · have hle : a ≤ n := by omega
      have hsplit : intRange a n = intRange a (n - 1) ++ [n] := by
        rw [intRange_concat hle (by omega : n ≤ n + 1), intRange_single]
      rw [hsplit, List.map_append, List.map_singleton, List.append_assoc,
        List.singleton_append] at hperm
      have hnotA : f n ∉ (intRange a (n - 1)).map f := by
        intro hm
        rcases List.mem_map.mp hm with ⟨p, hp, hfp⟩
        rw [mem_intRange] at hp
        have := hinj p n (by omega) (by omega) (by omega) (by omega) hfp
        omega
      have hmem : f n ∈ pool := by
        apply hperm.mem_iff.mpr
        exact List.mem_append_right _ (List.mem_cons_self _ _)
      have hg : 1 ≤ n := by omega
      rw [scanDownF, if_pos hg, if_pos hmem]
      have herase := hperm.erase (f n)
      rw [List.erase_append_right _ hnotA, List.erase_cons_head] at herase
      exact ih (n - 1) a _ extra ha (by omega) herase
        (fun p q hp hpb hq hqb heq => hinj p q hp (by omega) hq (by omega) heq)
        (fun p hp hpb => hex p hp (by omega)) hfr (by omega)

theorem scanUpF_miss {f : Int → String} (fuel : Nat) (pool : List String) (n : Int)
    (h : f n ∉ pool) : scanUpF f fuel pool n = (pool, n - 1) := by
  cases fuel with
  | zero => rw [scanUpF]
  | succ fuel => rw [scanUpF, if_neg h]

theorem scanDownF_miss {f : Int → String} (fuel : Nat) (pool : List String) (n : Int)
    (h : f n ∉ pool) : scanDownF f fuel pool n = (pool, n + 1) := by
  cases fuel with
  | zero => rw [scanDownF]
  | succ fuel =>
    rw [scanDownF]
    by_cases hg : 1 ≤ n
    · rw [if_pos hg, if_neg h]
    · rw [if_neg hg]

theorem list_mid_getD {α : Type} (l1 l2 : List α) (a d : α) :
    (l1 ++ a :: l2).getD l1.length d = a := by
  rw [List.getD_eq_getElem?_getD, List.getElem?_append_right (le_refl _), Nat.sub_self,
    List.getElem?_cons_zero]
  rfl

theorem list_mid_set {α : Type} (l1 l2 : List α) (a y : α) :
    (l1 ++ a :: l2).set l1.length y = l1 ++ y :: l2 := by
  rw [List.set_append, if_neg (by omega), Nat.sub_self, List.set_cons_zero]

theorem list_right_getD {α : Type} (l1 l2 : List α) (a d : α) (k : Nat) :
    (l1 ++ a :: l2).getD (l1.length + 1 + k) d = l2.getD k d := by
  rw [List.getD_eq_getElem?_getD, List.getElem?_append_right (by omega)]
  have h1 : l1.length + 1 + k - l1.length = k + 1 := by omega
  rw [h1, List.getElem?_cons_succ, List.getD_eq_getElem?_getD]

theorem list_right_set {α : Type} (l1 l2 : List α) (a y : α) (k : Nat) :
    (l1 ++ a :: l2).set (l1.length + 1 + k) y = l1 ++ a :: l2.set k y := by
  rw [List.set_append, if_neg (by omega)]
  have h1 : l1.length + 1 + k - l1.length = k + 1 := by omega
  rw [h1, List.set_cons_succ]

theorem list_mid_take {α : Type} (l1 l2 : List α) (a : α) :
    (l1 ++ a :: l2).take l1.length = l1 := List.take_left l1 (a :: l2)

theorem list_mid_drop {α : Type} (l1 l2 : List α) (a : α) :
    (l1 ++ a :: l2).drop (l1.length + 1) = l2 := by
  have h1 : l1 ++ a :: l2 = (l1 ++ [a]) ++ l2 := by
    rw [List.append_assoc, List.singleton_append]
  have h2 : l1.length + 1 = (l1 ++ [a]).length := by
    rw [List.length_append, List.length_singleton]
  rw [h1, h2, List.drop_left]

theorem strJoin_append {a b : List String} : strJoin (a ++ b) = strJoin a ++ strJoin b := by
  apply String.ext
  rw [String.data_append, strJoin_data, strJoin_data, strJoin_data, List.map_append,
    joinParts_append]

theorem strJoin_cons {a : String} {l : List String} : strJoin (a :: l) = a ++ strJoin l := rfl

theorem strJoin_components {s : String} : strJoin (components s) = s := by
  apply String.ext
  rw [strJoin_data, components_map_data, tokAux_join]

theorem candidateIndices_split {n i : Nat} (hodd : n % 2 = 1) (hi : i % 2 = 1)
    (h2 : i + 2 ≤ n) :
    ∃ A B, candidateIndices n = A ++ i :: B ∧
      ∀ j ∈ A, j % 2 = 1 ∧ i < j ∧ j + 2 ≤ n := by
  have hn3 : 3 ≤ n := by omega
  have hi1 : 1 ≤ i := by omega
  refine ⟨(List.range ((n - 2 - i) / 2)).map (fun j => n - 2 - 2 * j),
    (List.range ((n - 1) / 2 - (n - 2 - i) / 2 - 1)).map
      (fun t => n - 2 - 2 * ((n - 2 - i) / 2 + (t + 1))), ?_, ?_⟩
  · rw [candidateIndices]
    have hK : (n - 1) / 2 = (n - 2 - i) / 2 + (((n - 1) / 2) - (n - 2 - i) / 2) := by omega
    rw [hK, List.range_add, List.map_append]
    congr 1
    have hsucc : (n - 1) / 2 - (n - 2 - i) / 2 =
        ((n - 1) / 2 - (n - 2 - i) / 2 - 1) + 1 := by omega
    rw [hsucc, List.range_succ_eq_map, List.map_cons, List.map_map, List.map_cons,
      List.map_map]
    congr 1
    · omega
    · have harg : (n - 2 - i) / 2 + ((n - 1) / 2 - (n - 2 - i) / 2 - 1 + 1) -
          (n - 2 - i) / 2 - 1 = (n - 1) / 2 - (n - 2 - i) / 2 - 1 := by omega
      rw [harg]
      apply List.map_congr_left
      intro t _
      simp only [Function.comp_apply]
  · intro j hj
    rcases List.mem_map.mp hj with ⟨t, ht, rfl⟩
    rw [List.mem_range] at ht
    omega

theorem tryCandidates_skip {comps : List String} : ∀ {A : List Nat} {B : List Nat}
    {pool : List String},
    (∀ j ∈ A, tryCandidate comps j pool = (none, pool)) →
    tryCandidates comps (A ++ B) pool = tryCandidates comps B pool := by
  intro A
  induction A with
  | nil => intro B pool _; rfl
  | cons a A' ih =>
    intro B pool hA
    rw [List.cons_append, tryCandidates, hA a (List.mem_cons_self _ _)]
    exact ih (fun j hj => hA j (List.mem_cons_of_mem _ hj))

/-! ### Candidates strictly to the right of the counter always fail -/

theorem target_ne_renderName {S : FileSequence}
    (hH : ∀ c, S.head.data.getLast? = some c → c.isDigit = false)
    (hT : ∀ c, S.tail.data.head? = some c → c.isDigit = false)
    {m n : Int} (hm : 0 ≤ m) (hn : 0 ≤ n) (hmn : n ≠ m)
    {k : Nat} (hk1 : 1 ≤ k) (hk2 : k < (components S.tail).length)
    (y : String) :
    S.head ++ pyZfill (pyStr m) S.padding ++ strJoin ((components S.tail).set k y) ≠
      renderName S n := by
  intro he
  have hd := congrArg String.data he
  rw [renderName_data, String.data_append, String.data_append, List.append_assoc] at hd
  have hd2 := List.append_cancel_left hd
  have hdm := zfill_int_all_digits hm (p := S.padding)
  have hdn := zfill_int_all_digits hn (p := S.padding)
  have hpm : parseL (pyZfill (pyStr m) S.padding).data = m.toNat := parseL_zfill_int hm
  have hpn : parseL (pyZfill (pyStr n) S.padding).data = n.toNat := parseL_zfill_int hn
  rcases Nat.lt_trichotomy (pyZfill (pyStr m) S.padding).data.length
      (pyZfill (pyStr n) S.padding).data.length with hlt | heq | hgt
  · -- the counter token is shorter than the pool element's: the tail of the
    -- modified name would have to begin with surplus digits of the pool token
    have hJ : (strJoin ((components S.tail).set k y)).data =
        (pyZfill (pyStr n) S.padding).data.drop (pyZfill (pyStr m) S.padding).data.length
          ++ S.tail.data := by
      have := congrArg (List.drop (pyZfill (pyStr m) S.padding).data.length) hd2
      rw [List.drop_left, List.drop_append_of_le_length (by omega)] at this
      exact this
    have hene : (pyZfill (pyStr n) S.padding).data.drop
        (pyZfill (pyStr m) S.padding).data.length ≠ [] := by
      intro he2
      have h9 := congrArg List.length he2
      rw [List.length_drop, List.length_nil] at h9
      omega
    obtain ⟨c, e', hce⟩ := List.exists_cons_of_ne_nil hene
    have hcdig : c.isDigit = true := by
      apply hdn
      apply List.drop_subset _ _
      rw [hce]
      exact List.mem_cons_self _ _
    -- but that tail begins with the nonempty head literal of the tail components
    have hTne : S.tail.data ≠ [] := by
      intro he3
      rw [components_length, he3] at hk2
      have h1 : tokAux ([] : List Char) = [[]] := rfl
      rw [h1] at hk2
      simp at hk2
      omega
    have ht0 := tokAux_headD S.tail.data hTne hT
    obtain ⟨t0, rest, htk⟩ := List.exists_cons_of_ne_nil (tokAux_ne_nil S.tail.data)
    have hJ2 : (strJoin ((components S.tail).set k y)).data =
        t0 ++ joinParts (rest.set (k - 1) y.data) := by
      rw [strJoin_data, List.map_set, components_map_data, htk]
      obtain ⟨k', rfl⟩ : ∃ k', k = k' + 1 := ⟨k - 1, by omega⟩
      rw [List.set_cons_succ, joinParts_cons]
      simp
    have ht0ne : t0 ≠ [] := by
      rw [htk] at ht0
      exact ht0
    obtain ⟨c0, t0', hct0⟩ := List.exists_cons_of_ne_nil ht0ne
    have hc0 : c0.isDigit = false := by
      have := altParts_even_tok (tokAux S.tail.data) (tokAux_valid S.tail.data) 0 rfl c0
      rw [htk] at this
      apply this
      rw [List.getD_cons_zero, hct0]
      exact List.mem_cons_self _ _
    have hcc : c = c0 := by
      have h1 : (strJoin ((components S.tail).set k y)).data.head? = some c := by
        rw [hJ, hce]
        rfl
      have h2 : (strJoin ((components S.tail).set k y)).data.head? = some c0 := by
        rw [hJ2, hct0]
        rfl
      rw [h1] at h2
      exact Option.some.inj h2
    rw [hcc, hc0] at hcdig
    exact Bool.false_ne_true hcdig
  · -- equal token lengths force equal counters
    have := (List.append_inj hd2 heq).1
    have hparse : m.toNat = n.toNat := by
      rw [← hpm, ← hpn, this]
    omega
  · -- the counter token is longer: the original tail would have to begin
    -- with surplus digits of the counter token
    have hT2 : S.tail.data =
        (pyZfill (pyStr m) S.padding).data.drop (pyZfill (pyStr n) S.padding).data.length
          ++ (strJoin ((components S.tail).set k y)).data := by
      have := congrArg (List.drop (pyZfill (pyStr n) S.padding).data.length) hd2.symm
      rw [List.drop_left, List.drop_append_of_le_length (by omega)] at this
      exact this
    have hene : (pyZfill (pyStr m) S.padding).data.drop
        (pyZfill (pyStr n) S.padding).data.length ≠ [] := by
      intro he2
      have h9 := congrArg List.length he2
      rw [List.length_drop, List.length_nil] at h9
      omega
    obtain ⟨c, e', hce⟩ := List.exists_cons_of_ne_nil hene
    have hcdig : c.isDigit = true := by
      apply hdm
      apply List.drop_subset _ _
      rw [hce]
      exact List.mem_cons_self _ _
    have hchead : S.tail.data.head? = some c := by
      rw [hT2, hce]
      rfl
    have := hT c hchead
    rw [this] at hcdig
    exact Bool.false_ne_true hcdig

theorem tryCandidate_right_fails {S : FileSequence}
    (hH : ∀ c, S.head.data.getLast? = some c → c.isDigit = false)
    (hT : ∀ c, S.tail.data.head? = some c → c.isDigit = false)
    {m : Int} (hm : 0 ≤ m) {k : Nat} (hk1 : 1 ≤ k) (hk2 : k < (components S.tail).length)
    {pool : List String}
    (hpool : ∀ s ∈ pool, ∃ n, 0 ≤ n ∧ n ≠ m ∧ s = renderName S n) :
    tryCandidate (components (renderName S m)) ((components S.head).length + 1 + k) pool =
      (none, pool) := by
  have hcomps := components_renderName hH hT hm
  have hrender : ∀ (pad : Nat) (w : Int),
      render (components (renderName S m)) ((components S.head).length + 1 + k) pad w =
      S.head ++ pyZfill (pyStr m) S.padding ++
        strJoin ((components S.tail).set k (pyZfill (pyStr w) pad)) := by
    intro pad w
    rw [render, hcomps, list_right_set, strJoin_append, strJoin_cons, strJoin_components,
      ← String.append_assoc]
  have hmiss : ∀ (pad : Nat) (w : Int),
      render (components (renderName S m)) ((components S.head).length + 1 + k) pad w ∉
        pool := by
    intro pad w hmem
    obtain ⟨n, hn0, hnm, hs⟩ := hpool _ hmem
    rw [hrender] at hs
    exact target_ne_renderName hH hT hm hn0 hnm hk1 hk2 _ hs
  rw [tryCandidate]
  rw [scanUpF_miss _ _ _ (hmiss _ _)]
  dsimp only
  rw [scanDownF_miss _ _ _ (hmiss _ _)]
  dsimp only
  rw [if_neg (by omega)]

/-! ### The counter candidate consumes the whole pool and rebuilds the sequence -/

theorem tryCandidate_counter_succeeds {S : FileSequence}
    (hH : ∀ c, S.head.data.getLast? = some c → c.isDigit = false)
    (hT : ∀ c, S.tail.data.head? = some c → c.isDigit = false)
    (hpath : S.path = "") (h0 : 0 ≤ S.first) (hfl : S.first < S.last)
    {m : Int} (hm1 : S.first ≤ m) (hm2 : m ≤ S.last)
    (hfirstpos : 1 ≤ S.first ∨ m = 0)
    (hpad : (if startsWithZero (pyZfill (pyStr m) S.padding) = true
      then (pyZfill (pyStr m) S.padding).length else 0) = S.padding)
    {pool : List String}
    (hperm : pool.Perm ((intRange S.first (m - 1)).map (renderName S) ++
      (intRange (m + 1) S.last).map (renderName S))) :
    tryCandidate (components (renderName S m)) (components S.head).length pool =
      (some S, []) := by
  have hm0 : 0 ≤ m := by omega
  have hcomps := components_renderName hH hT hm0
  have htok : (components (renderName S m)).getD (components S.head).length "" =
      pyZfill (pyStr m) S.padding := by
    rw [hcomps, list_mid_getD]
  have hV : (Nat.cast (strToNat (pyZfill (pyStr m) S.padding)) : Int) = m := by
    rw [strToNat_eq_parseL, parseL_zfill_int hm0]
    omega
  have hrender : ∀ w, render (components (renderName S m)) (components S.head).length
      S.padding w = renderName S w := by
    intro w
    rw [render, hcomps, list_mid_set, strJoin_append, strJoin_cons, strJoin_components,
      strJoin_components, ← String.append_assoc, renderName]
  have hfun : render (components (renderName S m)) (components S.head).length S.padding =
      renderName S := funext hrender
  have hinj : ∀ p q : Int, 0 ≤ p → 0 ≤ q → renderName S p = renderName S q → p = q :=
    fun p q hp hq h => renderName_inj hp hq h
  obtain ⟨pool1, hup, hpool1⟩ := scanUpF_run (f := renderName S) pool.length (m + 1) S.last
    pool ((intRange S.first (m - 1)).map (renderName S)) (by omega)
    (hperm.trans List.perm_append_comm)
    (fun p q hp hpb hq hqb h => hinj p q (by omega) (by omega) h)
    (by
      intro p hp hpb hmem
      rcases List.mem_map.mp hmem with ⟨q, hq, hfq⟩
      rw [mem_intRange] at hq
      have := hinj q p (by omega) (by omega) hfq
      omega)
    (by
      intro hmem
      rcases List.mem_map.mp hmem with ⟨q, hq, hfq⟩
      rw [mem_intRange] at hq
      have := hinj q (S.last + 1) (by omega) (by omega) hfq
      omega)
    (by
      have hlen := hperm.length_eq
      rw [List.length_append, List.length_map, List.length_map, intRange_length,
        intRange_length] at hlen
      omega)
  obtain ⟨pool2, hdn, hpool2⟩ : ∃ pool2,
      scanDownF (renderName S) ((m : Int) - 1).toNat pool1 (m - 1) = (pool2, S.first) ∧
      pool2 = [] := by
    rcases hfirstpos with hf1 | hmz
    · obtain ⟨pool2, hdn, hp2⟩ := scanDownF_run (f := renderName S) (m - 1).toNat (m - 1)
        S.first pool1 [] hf1 (by omega)
        (by rw [List.append_nil]; exact hpool1)
        (fun p q hp hpb hq hqb h => hinj p q (by omega) (by omega) h)
        (fun p hp hpb hmem => absurd hmem (List.not_mem_nil _))
        (List.not_mem_nil _)
        (by omega)
      exact ⟨pool2, hdn, hp2.eq_nil⟩
    · have hfz : S.first = 0 := by omega
      have hempty : intRange S.first (m - 1) = [] := intRange_empty (by omega)
      rw [hempty, List.map_nil] at hpool1
      have hp1 : pool1 = [] := hpool1.eq_nil
      have hfuel : ((m : Int) - 1).toNat = 0 := by omega
      rw [hfuel, hp1, scanDownF]
      exact ⟨[], by rw [Prod.mk.injEq]; exact ⟨rfl, by omega⟩, rfl⟩
  rw [tryCandidate]
  rw [htok, hpad, hV, hfun, hup]
  dsimp only
  rw [hdn]
  dsimp only
  rw [if_pos (by omega : S.first ≠ S.last)]
  rw [hcomps, list_mid_take, list_mid_drop, strJoin_components, strJoin_components, hpool2]
  rw [← hpath]

theorem tryCandidates_enum {S : FileSequence}
    (hH : ∀ c, S.head.data.getLast? = some c → c.isDigit = false)
    (hT : ∀ c, S.tail.data.head? = some c → c.isDigit = false)
    (hpath : S.path = "") (h0 : 0 ≤ S.first) (hfl : S.first < S.last)
    {m : Int} (hm1 : S.first ≤ m) (hm2 : m ≤ S.last)
    (hfirstpos : 1 ≤ S.first ∨ m = 0)
    (hpad : (if startsWithZero (pyZfill (pyStr m) S.padding) = true
      then (pyZfill (pyStr m) S.padding).length else 0) = S.padding)
    {pool : List String}
    (hperm : pool.Perm ((intRange S.first (m - 1)).map (renderName S) ++
      (intRange (m + 1) S.last).map (renderName S))) :
    tryCandidates (components (renderName S m))
      (candidateIndices (components (renderName S m)).length) pool = (some S, []) := by
  have hm0 : 0 ≤ m := by omega
  have hcomps := components_renderName hH hT hm0
  have hCHodd : (components S.head).length % 2 = 1 := by
    rw [components_length]
    exact altParts_length_odd _ (tokAux_valid S.head.data)
  have hCTodd : (components S.tail).length % 2 = 1 := by
    rw [components_length]
    exact altParts_length_odd _ (tokAux_valid S.tail.data)
  have hCTpos : 1 ≤ (components S.tail).length := by omega
  have hn : (components (renderName S m)).length =
      (components S.head).length + 1 + (components S.tail).length := by
    rw [hcomps, List.length_append, List.length_cons]
    omega
  have hnodd : (components (renderName S m)).length % 2 = 1 := by omega
  have hi2 : (components S.head).length + 2 ≤ (components (renderName S m)).length := by
    omega
  obtain ⟨A, B, hAB, hA⟩ := candidateIndices_split hnodd hCHodd hi2
  have hpoolchar : ∀ s ∈ pool, ∃ q : Int, 0 ≤ q ∧ q ≠ m ∧ s = renderName S q := by
    intro s hs
    rcases List.mem_append.mp (hperm.mem_iff.mp hs) with hs1 | hs1
    · rcases List.mem_map.mp hs1 with ⟨q, hq, rfl⟩
      rw [mem_intRange] at hq
      exact ⟨q, by omega, by omega, rfl⟩
    · rcases List.mem_map.mp hs1 with ⟨q, hq, rfl⟩
      rw [mem_intRange] at hq
      exact ⟨q, by omega, by omega, rfl⟩
  have hskip : ∀ j ∈ A, tryCandidate (components (renderName S m)) j pool = (none, pool) := by
    intro j hj
    obtain ⟨hjodd, hjgt, hjle⟩ := hA j hj
    have hjk : j = (components S.head).length + 1 + (j - (components S.head).length - 1) := by
      omega
    rw [hjk]
    exact tryCandidate_right_fails hH hT hm0 (by omega) (by omega) hpoolchar
  rw [hAB, tryCandidates_skip hskip, tryCandidates,
    tryCandidate_counter_succeeds hH hT hpath h0 hfl hm1 hm2 hfirstpos hpad hperm]

theorem startsWithZero_pyStrNat {k : Nat} (hk : k ≠ 0) :
    startsWithZero (pyStrNat k) = false := by
  rw [startsWithZero]
  match hd : (pyStrNat k).data with
  | [] => rfl
  | c :: rest =>
    have hne := pyStrNat_head_ne_zero hk c (by rw [hd]; rfl)
    simp [hne]

theorem find_in_listFull_enum {S : FileSequence} (hPG : ProducedGood S) :
    find_in_listFull (enumNames S) = ([S], [], []) := by
  obtain ⟨hpath, h0, hfl, hp0, hppos, hHead, hTail⟩ := hPG
  have hlen2 : 2 ≤ (sortEntries (enumNames S)).length := by
    rw [(sortEntries_perm _).length_eq, enumNames_eq_map, List.length_map, intRange_length]
    omega
  obtain ⟨e0, rest, hsort⟩ : ∃ e0 rest, sortEntries (enumNames S) = e0 :: rest := by
    cases hs : sortEntries (enumNames S) with
    | nil =>
      rw [hs] at hlen2
      simp at hlen2
    | cons e r => exact ⟨e, r, rfl⟩
  have he0mem : e0 ∈ enumNames S :=
    (sortEntries_perm _).mem_iff.mp (by rw [hsort]; exact List.mem_cons_self _ _)
  obtain ⟨m, hm1, hm2, he0⟩ := mem_enumNames.mp he0mem
  subst he0
  have hrestperm : rest.Perm ((intRange S.first (m - 1)).map (renderName S) ++
      (intRange (m + 1) S.last).map (renderName S)) := by
    have h1 : (sortEntries (enumNames S)).Perm (enumNames S) := sortEntries_perm _
    rw [hsort, enumNames_eq_map, intRange_split hm1 hm2, List.map_append, List.map_cons] at h1
    exact (h1.trans List.perm_middle).cons_inv
  have hkey : ((if startsWithZero (pyZfill (pyStr m) S.padding) = true
      then (pyZfill (pyStr m) S.padding).length else 0) = S.padding) ∧
      (1 ≤ S.first ∨ m = 0) := by
    by_cases hp : S.padding = 0
    · have hf1 : 1 ≤ S.first := hp0 hp
      constructor
      · rw [hp, pyZfill_zero, pyStr_nonneg (by omega : (0:Int) ≤ m),
          startsWithZero_pyStrNat (by omega : m.toNat ≠ 0)]
        simp
      · left
        exact hf1
    · have hmf : m = S.first := by
        by_contra hne
        have hflt : S.first < m := by omega
        have hmem : renderName S S.first ∈ rest := by
          have h3 : renderName S S.first ∈ sortEntries (enumNames S) :=
            (sortEntries_perm _).mem_iff.mpr
              (mem_enumNames.mpr ⟨S.first, le_refl _, by omega, rfl⟩)
          rw [hsort] at h3
          rcases List.mem_cons.mp h3 with heq | h4
          · exact absurd (renderName_inj h0 (by omega) heq) (by omega)
          · exact h4
        have hsorted := sortEntries_sorted (enumNames S)
        rw [hsort, List.sorted_cons] at hsorted
        have hle := hsorted.1 _ hmem
        rw [strLeB] at hle
        have hlt := renderName_first_min ⟨hpath, h0, hfl, hp0, hppos, hHead, hTail⟩ hp
          hflt hm2
        rw [hlt] at hle
        simp at hle
      subst hmf
      refine ⟨?_, by omega⟩
      rw [(hppos hp).1, if_pos rfl]
      exact (hppos hp).2
  obtain ⟨hpad, hfirstpos⟩ := hkey
  have htc := tryCandidates_enum hHead hTail hpath h0 hfl hm1 hm2 hfirstpos hpad hrestperm
  rw [find_in_listFull, hsort, List.length_cons, detectLoopF]
  rw [htc]
  dsimp only
  rw [detectLoopF]
  simp

/-- C2: round-trip idempotence.  For every sequence `S` produced by
`find_in_list` on some input, running `find_in_list` on exactly the list of
all filenames enumerated by `S` yields exactly one sequence and an empty
`others`, and that sequence is identical to `S` (same head, tail, first,
last and padding). -/
theorem c2_round_trip (L : List String) (S : FileSequence)
    (hS : S ∈ (find_in_list L).1) :
    find_in_list (enumNames S) = ([S], []) := by
  have hPG := (find_in_list_spec L).2.1 S hS
  rw [find_in_list, find_in_listFull_enum hPG]

theorem c2_round_trip_witness :
    (⟨"", "a.", ".ext", 1, 2, 4⟩ : FileSequence) ∈
        (find_in_list ["a.0001.ext", "a.0002.ext", "readme"]).1 ∧
      find_in_list (enumNames ⟨"", "a.", ".ext", 1, 2, 4⟩) =
        ([⟨"", "a.", ".ext", 1, 2, 4⟩], []) :=
  ⟨by decide, c2_round_trip ["a.0001.ext", "a.0002.ext", "readme"] _ (by decide)⟩
